import Mathlib

/-!
Verification of the attribute-block rebuilder of the vuenify extension.

Shallow embedding of the sources:
- `src/transformer.ts` (`vuenifyTransform`, `Replacement`),
- `src/attributeFormatter.ts` (`buildUnifiedAttributeReplacement`, `stableSort`,
  `asciiCompare`, the clone helpers),
- `src/directiveTransform.ts` (`getDirectiveTransform`, `buildDirective`),
- `src/test/utils/applyEdits.ts` (`applyEdits`),
- `src/types.ts` (the option types).

Text is modelled as `List Char` (named `Str`); JavaScript strings are
sequences of code units compared by code point, which agrees with `Char`
comparison for all inputs without surrogate pairs.
-/

/-- Text as a list of characters, standing for a JavaScript string. -/
abbrev Str := List Char

/-- Conversion of a Lean string literal into the `Str` model. -/
def str (s : String) : Str := s.data

/-- Whitespace test matching the JavaScript regular-expression class. -/
def jsIsWhitespace (c : Char) : Bool :=
  c = ' ' || c = '\t' || c = '\n' || c = '\r' ||
  c.val = 0x0b || c.val = 0x0c || c.val = 0xa0 || c.val = 0x1680 ||
  (0x2000 ≤ c.val && c.val ≤ 0x200a) || c.val = 0x2028 || c.val = 0x2029 ||
  c.val = 0x202f || c.val = 0x205f || c.val = 0x3000 || c.val = 0xfeff

/-- JavaScript `String.prototype.trim`: strip whitespace from both ends. -/
def trimStr (s : Str) : Str :=
  ((s.dropWhile jsIsWhitespace).reverse.dropWhile jsIsWhitespace).reverse

/-- Extension step for `splitWs`: a non-whitespace head `c` either starts a
fresh token (at the end of the text or before whitespace) or extends the
first token of `r`, the split of `rest`. -/
def splitWsCons (c : Char) (rest : Str) (r : List Str) : List Str :=
  match rest with
  | [] => [[c]]
  | d :: _ =>
    if jsIsWhitespace d then [c] :: r
    else
      match r with
      | t :: ts => (c :: t) :: ts
      | [] => [[c]]

/-- JavaScript `value.split(/\s+/).filter(Boolean)`: the maximal
whitespace-free tokens of `s`, in order, empties discarded. -/
def splitWs : Str → List Str
  | [] => []
  | c :: rest =>
    if jsIsWhitespace c then splitWs rest
    else splitWsCons c rest (splitWs rest)

/-- JavaScript `[...new Set(xs)]`: first occurrence of each element, in
first-occurrence order.  `seen` accumulates the elements already kept. -/
def dedupFirstAux (seen : List Str) : List Str → List Str
  | [] => []
  | x :: xs => if x ∈ seen then dedupFirstAux seen xs else x :: dedupFirstAux (x :: seen) xs

/-- JavaScript `[...new Set(xs)]` with the empty memory. -/
def dedupFirst (l : List Str) : List Str := dedupFirstAux [] l

/-- JavaScript `s.slice(a, b)` for non-negative indices. -/
def sliceStr (s : Str) (a b : Nat) : Str := (s.drop a).take (b - a)

/-- JavaScript `raw.slice(raw.indexOf "=")`, and `""` when `=` is absent:
the suffix of `s` from its first `=` on. -/
def sliceFromEq : Str → Str
  | [] => []
  | c :: cs => if c = '=' then c :: cs else sliceFromEq cs

/-- Indentation captured by the JavaScript match `/\n(\s+)/`: the maximal
whitespace run following the first newline that is followed by whitespace;
`none` when no such newline exists. -/
def indentOf : Str → Option Str
  | [] => none
  | c :: rest =>
    if c = '\n' && (match rest with | r :: _ => jsIsWhitespace r | [] => false) then
      some (rest.takeWhile jsIsWhitespace)
    else indentOf rest

/-- Lexicographic code-point comparison; the `a < b` JavaScript string test. -/
def ltStr : Str → Str → Bool
  | [], [] => false
  | [], _ :: _ => true
  | _ :: _, [] => false
  | a :: as, b :: bs =>
    if a.toNat < b.toNat then true else if b.toNat < a.toNat then false else ltStr as bs

/-- Source `asciiCompare` from `attributeFormatter.ts`:
`a === b ? 0 : a < b ? -1 : 1`. -/
def asciiCompare (a b : Str) : Int := if a = b then 0 else if ltStr a b then -1 else 1

/-- Insertion of `a` into `l`, before the first element `b` with `le a b`. -/
def insertSorted (le : α → α → Bool) (a : α) : List α → List α
  | [] => [a]
  | b :: bs => if le a b then a :: b :: bs else b :: insertSorted le a bs

/-- Insertion sort by the boolean relation `le`; a stable sort. -/
def sortByLe (le : α → α → Bool) : List α → List α
  | [] => []
  | a :: as => insertSorted le a (sortByLe le as)

/-- Non-strict order induced by the source `stableSort`'s effective
comparator `(a, b) => compare(a.value, b.value) !== 0 ? … : a.index - b.index`
on index-tagged entries. -/
def pairLe (compare : α → α → Int) (a b : Nat × α) : Bool :=
  if compare a.2 b.2 = 0 then decide (a.1 ≤ b.1) else decide (compare a.2 b.2 < 0)

/-- Source `stableSort` from `attributeFormatter.ts`: tag each element with
its index, sort by the comparator with the original index as tie-break,
untag.  With the tie-break the effective comparator is a total order with no
ties, so the engine's sort result is the unique sorted permutation; it is
computed here by insertion sort. -/
def stableSort (items : List α) (compare : α → α → Int) : List α :=
  (sortByLe (pairLe compare) items.enum).map Prod.snd

/-- JavaScript `[...processed].sort(asciiCompare)`.  Modern engines sort
stably, and `asciiCompare` ties only on equal strings, so every sorted
permutation is the same list; insertion sort computes it. -/
def jsSortedStrings (l : List Str) : List Str :=
  sortByLe (fun a b => decide (asciiCompare a b ≤ 0)) l

/-- Byte range of a node inside the document, plus its raw source text:
the `loc` of a `@vue/compiler-dom` node as consumed by this code. -/
structure SourceLocation where
  startOffset : Nat
  endOffset : Nat
  source : Str
deriving DecidableEq

/-- Static attribute node (`AttributeNode`): `value` is `some content` when
the attribute carries a value node with text `content`. -/
structure AttributeNode where
  name : Str
  value : Option Str
  loc : SourceLocation
deriving DecidableEq

/-- Directive node (`DirectiveNode`): `arg` and `exp` hold `loc.source` of
the argument and expression nodes when present; `modifiers` holds the
modifier contents. -/
structure DirectiveNode where
  name : Str
  arg : Option Str
  exp : Option Str
  modifiers : List Str
  loc : SourceLocation
deriving DecidableEq

/-- Union of the two prop kinds, `AttributeNode | DirectiveNode`. -/
inductive PropNode
  | attr (a : AttributeNode)
  | dir (d : DirectiveNode)
deriving DecidableEq

/-- Element node: its prop list and its own source span. -/
structure ElementNode where
  props : List PropNode
  loc : SourceLocation
deriving DecidableEq

/-- Location of a prop node. -/
def propLoc : PropNode → SourceLocation
  | PropNode.attr a => a.loc
  | PropNode.dir d => d.loc

/-- Name of a prop node. -/
def propName : PropNode → Str
  | PropNode.attr a => a.name
  | PropNode.dir d => d.name

/-- Type guard `isAttributeNode`. -/
def isAttributeNode : PropNode → Bool
  | PropNode.attr _ => true
  | PropNode.dir _ => false

/-- Type guard `isDirectiveNode`. -/
def isDirectiveNode : PropNode → Bool
  | PropNode.attr _ => false
  | PropNode.dir _ => true

/-- Option `attributeLayout` from `types.ts`. -/
inductive AttributeLayout | inl | preserve
deriving DecidableEq

/-- Option `classLayout` from `types.ts`. -/
inductive ClassLayout | inl | preserve
deriving DecidableEq

/-- Option `directiveStyle` from `types.ts`. -/
inductive DirectiveStyle | short | long
deriving DecidableEq

/-- Option `sameNameMode` from `types.ts`. -/
inductive SameNameMode | ignore | removeValue | addValue
deriving DecidableEq

/-- `ResolvedVuenifyOptions` from `types.ts`: every option populated. -/
structure ResolvedVuenifyOptions where
  attributeLayout : AttributeLayout
  classLayout : ClassLayout
  directiveOrder : List Str
  directiveStyle : DirectiveStyle
  normalizeDirectives : Bool
  orderAttributes : Bool
  orderDirectives : Bool
  removeDuplicates : Bool
  sameNameMode : SameNameMode
  sortClasses : Bool
deriving DecidableEq

/-- `Replacement` from `transformer.ts`; the `end` field is spelled
`endPos` because `end` is a Lean keyword. -/
structure Replacement where
  start : Nat
  endPos : Nat
  value : Str
deriving DecidableEq

/-- Argument normalization from `directiveTransform.ts`:
strip `[` `]` from a dynamic argument, then trim. -/
def normalizedArgOf (arg : Str) : Str :=
  let isDynamic := (match arg with | '[' :: _ => true | _ => false) &&
    decide (arg.getLast? = some ']')
  trimStr (if isDynamic then (arg.drop 1).dropLast else arg)

/-- Same-name handling from `getDirectiveTransform`: the value part after
the `v-bind` same-name policy has been applied.  `exp` is the expression
node's source when present, `originalValuePart` the `=`-suffix of the raw
directive text. -/
def directiveValuePart (sameNameMode : SameNameMode) (name arg : Str)
    (exp : Option Str) (originalValuePart : Str) : Str :=
  if name = str "bind" ∧ arg ≠ [] ∧ sameNameMode ≠ SameNameMode.ignore then
    let normalizedArg := normalizedArgOf arg
    if sameNameMode = SameNameMode.removeValue ∧ exp.isSome then
      (if trimStr (exp.getD []) = normalizedArg then [] else originalValuePart)
    else if sameNameMode = SameNameMode.addValue ∧ exp.isNone then
      '=' :: '"' :: (normalizedArg ++ ['"'])
    else originalValuePart
  else originalValuePart

/-- Source `buildDirective` from `directiveTransform.ts`. -/
def buildDirective (raw name arg modifierStr valuePart : Str)
    (style : DirectiveStyle) : Str :=
  if ¬(name = str "bind" ∨ name = str "on" ∨ name = str "slot") then raw
  else if style = DirectiveStyle.short ∧ name = str "bind" ∧ arg ≠ [] then
    ':' :: (arg ++ modifierStr ++ valuePart)
  else if style = DirectiveStyle.short ∧ name = str "on" ∧ arg ≠ [] then
    '@' :: (arg ++ modifierStr ++ valuePart)
  else if style = DirectiveStyle.short ∧ name = str "slot" ∧ arg ≠ [] then
    '#' :: (arg ++ modifierStr ++ valuePart)
  else if style = DirectiveStyle.long ∧ name = str "bind" ∧ arg ≠ [] then
    str "v-bind:" ++ (arg ++ modifierStr ++ valuePart)
  else if style = DirectiveStyle.long ∧ name = str "on" ∧ arg ≠ [] then
    str "v-on:" ++ (arg ++ modifierStr ++ valuePart)
  else if style = DirectiveStyle.long ∧ name = str "slot" ∧ arg ≠ [] then
    str "v-slot:" ++ (arg ++ modifierStr ++ valuePart)
  else raw

/-- Source `getDirectiveTransform` from `directiveTransform.ts`.  The guard
`!prop.loc?.source` is the emptiness test on the raw source text. -/
def getDirectiveTransform (prop : DirectiveNode) (templateOffset : Nat)
    (style : DirectiveStyle) (sameNameMode : SameNameMode) : Option Replacement :=
  if prop.loc.source = [] then none
  else
    let raw := prop.loc.source
    let name := prop.name
    let arg := prop.arg.getD []
    let modifiers := prop.modifiers.filter (fun m => decide (m ≠ []))
    let modifierStr := if modifiers ≠ [] then '.' :: List.intercalate (str ".") modifiers else []
    let hasValue := prop.exp.isSome
    let originalValuePart := if hasValue then sliceFromEq raw else []
    let valuePart := directiveValuePart sameNameMode name arg prop.exp originalValuePart
    let newDirective := buildDirective raw name arg modifierStr valuePart style
    if raw ≠ newDirective then
      some { start := templateOffset + prop.loc.startOffset,
             endPos := templateOffset + prop.loc.endOffset,
             value := newDirective }
    else none

/-- Clone helper `cloneAttributeWithSource`: same node, new raw source. -/
def cloneAttributeWithSource (original : AttributeNode) (newSource : Str) : AttributeNode :=
  { original with loc := { original.loc with source := newSource } }

/-- Clone helper `cloneDirectiveWithSource`: same node, new raw source. -/
def cloneDirectiveWithSource (original : DirectiveNode) (newSource : Str) : DirectiveNode :=
  { original with loc := { original.loc with source := newSource } }

/-- Class-token pipeline from the CLASS PROCESSING branch: split the value,
optionally deduplicate, optionally sort. -/
def classProcessedTokens (options : ResolvedVuenifyOptions) (rawValue : Str) : List Str :=
  let classes := splitWs rawValue
  let processed := if options.removeDuplicates then dedupFirst classes else classes
  if options.sortClasses then jsSortedStrings processed else processed

/-- Quote character reused when rebuilding a class attribute:
`originalSource.includes "'" ? "'" : '"'`. -/
def classQuote (originalSource : Str) : Char :=
  if originalSource.contains '\'' then '\'' else '"'

/-- Rebuilt class value text: multiline when `classLayout` is `preserve`
and the original attribute text contains a newline, single-space joined
otherwise.  With an empty token list the preserve branch reads
`processed[0]`, which is `undefined` and is coerced to the text
`undefined` by the template literal. -/
def classRebuiltValue (options : ResolvedVuenifyOptions) (originalSource rawValue : Str) : Str :=
  let processed := classProcessedTokens options rawValue
  if options.classLayout = ClassLayout.preserve ∧ originalSource.contains '\n' then
    let indent := (indentOf originalSource).getD (str "  ")
    (match processed with
     | [] => str "undefined"
     | t :: _ => t) ++ ((processed.drop 1).map (fun c => '\n' :: (indent ++ c))).flatten
  else List.intercalate [' '] processed

/-- Rebuilt class attribute text, `class=quote value quote`. -/
def rebuildClassSource (options : ResolvedVuenifyOptions) (a : AttributeNode) : Str :=
  match a.value with
  | none => a.loc.source
  | some rawValue =>
    str "class=" ++ (classQuote a.loc.source ::
      (classRebuiltValue options a.loc.source rawValue ++ [classQuote a.loc.source]))

/-- First pass of `buildUnifiedAttributeReplacement` on one prop: rebuild a
class attribute when a class flag is set, normalize a directive when
`normalizeDirectives` is set, replace the prop's raw source when the rebuilt
text differs, otherwise keep the original node. -/
def transformProp (options : ResolvedVuenifyOptions) : PropNode → PropNode
  | PropNode.attr a =>
    if a.name = str "class" ∧ a.value.isSome ∧ (options.sortClasses ∨ options.removeDuplicates) then
      let rebuilt := rebuildClassSource options a
      if rebuilt ≠ a.loc.source then PropNode.attr (cloneAttributeWithSource a rebuilt)
      else PropNode.attr a
    else PropNode.attr a
  | PropNode.dir d =>
    if options.normalizeDirectives then
      match getDirectiveTransform d 0 options.directiveStyle options.sameNameMode with
      | some res =>
        if res.value ≠ d.loc.source then PropNode.dir (cloneDirectiveWithSource d res.value)
        else PropNode.dir d
      | none => PropNode.dir d
    else PropNode.dir d

/-- Weight map built from `options.directiveOrder` by repeated `Map.set`:
the value stored for a name is its last index in the list; absent names get
the fallback weight `1000`. -/
def directiveWeight (order : List Str) (name : Str) : Nat :=
  match ((order.enum.filter (fun p => decide (p.2 = name))).getLast?.map Prod.fst) with
  | some i => i
  | none => 1000

/-- Directive comparator from the DIRECTIVE ORDERING block, expressed on
prop nodes (the source narrows the filtered props to `DirectiveNode`). -/
def dirPropCompare (order : List Str) (a b : PropNode) : Int :=
  let aWeight := directiveWeight order (propName a)
  let bWeight := directiveWeight order (propName b)
  if aWeight ≠ bWeight then (aWeight : Int) - (bWeight : Int)
  else asciiCompare (propName a) (propName b)

/-- Value presence test `!!a.value` for the attribute comparator. -/
def attrHasValue : PropNode → Bool
  | PropNode.attr a => a.value.isSome
  | PropNode.dir _ => false

/-- Attribute comparator from the ATTRIBUTE ORDERING block: valued before
boolean, then by name. -/
def attrPropCompare (a b : PropNode) : Int :=
  if attrHasValue a ≠ attrHasValue b then (if attrHasValue a then -1 else 1)
  else asciiCompare (propName a) (propName b)

/-- Splice-back `sorted.map(p => isK(p) ? sortedOnes[i++] : p)`: walk `l`,
replacing each `isK` position with the next element of `ds`.  The callers
always pass a `ds` of exactly the length of `l.filter isK`, so the
out-of-supply fallback (keep the original prop) is never reached. -/
def spliceBy (isK : PropNode → Bool) : List PropNode → List PropNode → List PropNode
  | [], _ => []
  | p :: ps, ds =>
    if isK p then
      match ds with
      | d :: ds2 => d :: spliceBy isK ps ds2
      | [] => p :: spliceBy isK ps []
    else p :: spliceBy isK ps ds

/-- DIRECTIVE ORDERING pass: stable-sort the directive subsequence by
`(weight, name)` and splice it back. -/
def orderDirectivesPass (order : List Str) (l : List PropNode) : List PropNode :=
  spliceBy isDirectiveNode l (stableSort (l.filter isDirectiveNode) (dirPropCompare order))

/-- ATTRIBUTE ORDERING pass: stable-sort the attribute subsequence by
(has value, name) and splice it back. -/
def orderAttributesPass (l : List PropNode) : List PropNode :=
  spliceBy isAttributeNode l (stableSort (l.filter isAttributeNode) attrPropCompare)

/-- Positional difference test `sorted.some((p, idx) => p !== props[idx])`.
Structural inequality coincides with reference inequality here: a cloned
prop always carries a changed raw source, and unmoved props are the same
node. -/
def someDiffers (sorted props : List PropNode) : Bool :=
  (sorted.zip props).any fun pq => decide (pq.1 ≠ pq.2)

/-- Separator for the rebuilt block: the exact original gap between the
first two props when `attributeLayout` is `preserve`, the block has more
than one prop and that gap contains a newline; a single space otherwise. -/
def computeSeparator (element : ElementNode) (options : ResolvedVuenifyOptions) : Str :=
  match element.props with
  | p0 :: p1 :: _ =>
    if options.attributeLayout = AttributeLayout.preserve then
      let firstEnd := (propLoc p0).endOffset - element.loc.startOffset
      let secondStart := (propLoc p1).startOffset - element.loc.startOffset
      let gap := sliceStr element.loc.source firstEnd secondStart
      if gap.contains '\n' then gap else [' ']
    else [' ']
  | _ => [' ']

/-- First pass over the whole prop list. -/
def pass1 (options : ResolvedVuenifyOptions) (props : List PropNode) : List PropNode :=
  props.map (transformProp options)

/-- Passes 2 and 3 (directive ordering, attribute ordering), gated by their
flags. -/
def sortPasses (options : ResolvedVuenifyOptions) (l : List PropNode) : List PropNode :=
  let sorted1 := if options.orderDirectives then orderDirectivesPass options.directiveOrder l else l
  if options.orderAttributes then orderAttributesPass sorted1 else sorted1

/-- Final prop order produced by the three passes. -/
def buildSorted (options : ResolvedVuenifyOptions) (props : List PropNode) : List PropNode :=
  sortPasses options (pass1 options props)

/-- Changed flag accumulated over the three passes.  The source only runs
each positional comparison when `changed` is still false; accumulating with
`||` is equivalent. -/
def buildChanged (options : ResolvedVuenifyOptions) (props : List PropNode) : Bool :=
  let transformed := pass1 options props
  let sorted1 := if options.orderDirectives then orderDirectivesPass options.directiveOrder transformed else transformed
  let sorted2 := if options.orderAttributes then orderAttributesPass sorted1 else sorted1
  (props.any fun p => decide (transformProp options p ≠ p)) ||
    (options.orderDirectives && someDiffers sorted1 props) ||
    (options.orderAttributes && someDiffers sorted2 props)

/-- Source `buildUnifiedAttributeReplacement` from `attributeFormatter.ts`:
no props or no change yields no replacement; otherwise one replacement
spanning from the start of the first original prop to the end of the last
original prop, whose text is the final prop sources joined by the computed
separator. -/
def buildUnifiedAttributeReplacement (element : ElementNode) (templateOffset : Nat)
    (options : ResolvedVuenifyOptions) : Option Replacement :=
  match element.props with
  | [] => none
  | p0 :: rest =>
    if buildChanged options (p0 :: rest) then
      some { start := templateOffset + (propLoc p0).startOffset,
             endPos := templateOffset + (propLoc ((p0 :: rest).getLast (List.cons_ne_nil p0 rest))).endOffset,
             value := List.intercalate (computeSeparator element options)
               ((buildSorted options (p0 :: rest)).map fun p => (propLoc p).source) }
    else none

/-- Source `applyEdits` from `test/utils/applyEdits.ts`: apply the edits in
descending `start` order by offset slicing. -/
def applyEdits (source : Str) (edits : List Replacement) : Str :=
  (sortByLe (fun a b => decide (b.start ≤ a.start)) edits).foldl
    (fun s r => s.take r.start ++ r.value ++ s.drop r.endPos) source

/-- Modelled from the spec: `vuenifyTransform` delegates document parsing to
the external `@vue/compiler-sfc` and `@vue/compiler-dom` collaborators
(specified only at their interface) and walks the element tree in document
order, collecting each element's replacement.  The transform is therefore
modelled on the ordered list of element nodes the walk visits, with the
template content offset already resolved. -/
def vuenifyTransformOnElements (elements : List ElementNode) (contentStartOffset : Nat)
    (options : ResolvedVuenifyOptions) : List Replacement :=
  elements.filterMap fun e => buildUnifiedAttributeReplacement e contentStartOffset options

/-- Modelled from the spec: expression field of a rewritten directive after
re-parsing its rendered text — unchanged unless the same-name policy removed
the value part (no expression remains) or synthesized one (the expression is
the normalized argument). -/
def reparsedExp (sameNameMode : SameNameMode) (d : DirectiveNode) : Option Str :=
  if d.name = str "bind" ∧ d.arg.getD [] ≠ [] ∧ sameNameMode ≠ SameNameMode.ignore then
    let normalizedArg := normalizedArgOf (d.arg.getD [])
    if sameNameMode = SameNameMode.removeValue ∧ d.exp.isSome ∧
        trimStr (d.exp.getD []) = normalizedArg then none
    else if sameNameMode = SameNameMode.addValue ∧ d.exp.isNone then some normalizedArg
    else d.exp
  else d.exp

/-- Modelled from the spec: the prop node the parsing collaborator returns
for one rendered prop text.  An untouched prop re-parses to itself; a
rewritten class attribute carries the rebuilt value text; a rewritten
directive keeps its name, argument and modifiers and carries the adjusted
expression. -/
def reparsedProp (options : ResolvedVuenifyOptions) : PropNode → PropNode
  | PropNode.attr a =>
    if a.name = str "class" ∧ a.value.isSome ∧ (options.sortClasses ∨ options.removeDuplicates) then
      let rebuilt := rebuildClassSource options a
      if rebuilt ≠ a.loc.source then
        PropNode.attr { a with
          value := some (classRebuiltValue options a.loc.source (a.value.getD [])),
          loc := { a.loc with source := rebuilt } }
      else PropNode.attr a
    else PropNode.attr a
  | PropNode.dir d =>
    if options.normalizeDirectives then
      match getDirectiveTransform d 0 options.directiveStyle options.sameNameMode with
      | some res =>
        if res.value ≠ d.loc.source then
          PropNode.dir { d with
            exp := reparsedExp options.sameNameMode d,
            loc := { d.loc with source := res.value } }
        else PropNode.dir d
      | none => PropNode.dir d
    else PropNode.dir d

/-- Modelled from the spec: the element obtained by applying the computed
replacement to the document and re-parsing the rebuilt block.  Its props are
the re-parsed rewritten props in the rebuilt order; its source is the
rendered block.  The rebuilder consults prop offsets only for the separator
gap and the final span, neither of which affects whether a change is
detected, so the re-parsed props keep their original spans. -/
def rerenderedElement (element : ElementNode) (options : ResolvedVuenifyOptions) : ElementNode :=
  let props2 := sortPasses options (element.props.map (reparsedProp options))
  let rendered := List.intercalate (computeSeparator element options)
    (props2.map fun p => (propLoc p).source)
  { props := props2,
    loc := { startOffset := 0, endOffset := rendered.length, source := rendered } }

/-- Start offset of an element's prop block (its first prop), absolute in
the document once the template offset is added; `0` for an empty block. -/
def blockStart (e : ElementNode) : Nat :=
  match e.props with
  | [] => 0
  | p :: _ => (propLoc p).startOffset

/-- End offset of an element's prop block (its last prop). -/
def blockEnd (e : ElementNode) : Nat :=
  match e.props with
  | [] => 0
  | p :: rest => (propLoc ((p :: rest).getLast (List.cons_ne_nil p rest))).endOffset

/-- Options value used by concrete witnesses: ordering passes enabled,
class flags off. -/
def wOptsOrder : ResolvedVuenifyOptions :=
  { attributeLayout := AttributeLayout.inl, classLayout := ClassLayout.inl,
    directiveOrder := [str "if", str "else", str "else-if", str "for", str "on", str "model", str "bind"],
    directiveStyle := DirectiveStyle.short, normalizeDirectives := false,
    orderAttributes := true, orderDirectives := true,
    removeDuplicates := false, sameNameMode := SameNameMode.ignore, sortClasses := false }

/-- Directive prop used in concrete witnesses. -/
def wDir (n exp src : String) (a b : Nat) : PropNode :=
  PropNode.dir
    { name := str n, arg := none, exp := some (str exp),
      modifiers := [], loc := { startOffset := a, endOffset := b, source := str src } }

/-- Element with the three directives of the repository's ordering test. -/
def wElemDirs : ElementNode :=
  { props := [wDir "bind" "a" "v-bind=\"a\"" 5 15, wDir "if" "x" "v-if=\"x\"" 16 24,
      wDir "model" "y" "v-model=\"y\"" 25 36],
    loc := { startOffset := 0, endOffset := 40, source := str "<div v-bind=\"a\" v-if=\"x\" v-model=\"y\">" } }

/-- Replacement computed for `wElemDirs` at template offset 10. -/
def c3Rep : Replacement :=
  { start := 15, endPos := 46, value := str "v-if=\"x\" v-model=\"y\" v-bind=\"a\"" }

/-- Options with `attributeLayout = preserve`, used by the C9 witness. -/
def c9Opts : ResolvedVuenifyOptions :=
  { wOptsOrder with attributeLayout := AttributeLayout.preserve }

/-- Attribute prop helper for concrete witnesses. -/
def wAttr (n : String) (v : Option String) (src : String) (a b : Nat) : PropNode :=
  PropNode.attr
    { name := str n, value := v.map str,
      loc := { startOffset := a, endOffset := b, source := str src } }

/-- Two-attribute element whose original gap is a newline plus two spaces. -/
def c9Elem : ElementNode :=
  { props := [wAttr "a" (some "1") "a=\"1\"" 5 10, wAttr "b" (some "2") "b=\"2\"" 13 18],
    loc := { startOffset := 0, endOffset := 19,
             source := str "<div a=\"1\"\n  b=\"2\">" } }

/-- Second element for the C2 witness, far to the right of `wElemDirs`. -/
def c2Elem2 : ElementNode :=
  { props := [wAttr "id" (some "x") "id=\"x\"" 50 56, wAttr "disabled" none "disabled" 57 65],
    loc := { startOffset := 45, endOffset := 70, source := str "<input id=\"x\" disabled>" } }

/-- Class attribute whose value is non-empty whitespace containing a
newline; used by the C10 witness. -/
def c10Attr : AttributeNode :=
  { name := str "class", value := some (str " \n "),
    loc := { startOffset := 5, endOffset := 16, source := str "class=\" \n \"" } }

/-- Single-prop element around `c10Attr`. -/
def c10Elem : ElementNode :=
  { props := [PropNode.attr c10Attr],
    loc := { startOffset := 0, endOffset := 20, source := str "<div class=\" \n \">" } }

/-- Options with a class flag on and `classLayout = preserve`, for C10. -/
def c10Opts : ResolvedVuenifyOptions :=
  { wOptsOrder with
      sortClasses := true, classLayout := ClassLayout.preserve,
      orderAttributes := false, orderDirectives := false }

/-- Source text `class="a's b"`: double-quoted value containing an
apostrophe. -/
def c5Src : Str := str "class=" ++ ['"', 'a', '\'', 's', ' ', 'b', '"']

/-- Class attribute whose double-quoted value contains an apostrophe. -/
def c5Attr : AttributeNode :=
  { name := str "class", value := some ['a', '\'', 's', ' ', 'b'],
    loc := { startOffset := 5, endOffset := 18, source := c5Src } }

/-- Single-prop element around `c5Attr`. -/
def c5Elem : ElementNode :=
  { props := [PropNode.attr c5Attr],
    loc := { startOffset := 0, endOffset := 20, source := str "<div " ++ c5Src ++ ['>'] } }

/-- Options sorting classes only. -/
def c5Opts : ResolvedVuenifyOptions :=
  { wOptsOrder with
      sortClasses := true, orderAttributes := false, orderDirectives := false }

/-- Text the rebuilder emits for `c5Attr`: single-quoted. -/
def c5Rebuilt : Str := str "class=" ++ ['\'', 'a', '\'', 's', ' ', 'b', '\'']

/-- Class attribute with a single-quoted value, for the C5 witness. -/
def c5wAttr : AttributeNode :=
  { name := str "class", value := some (str "b a"),
    loc := { startOffset := 5, endOffset := 16, source := str "class=" ++ ['\'', 'b', ' ', 'a', '\''] } }

/-- Bind directive with a dynamic argument and no expression. -/
def c6Dir : DirectiveNode :=
  { name := str "bind", arg := some (str "[key]"), exp := none, modifiers := [],
    loc := { startOffset := 5, endOffset := 11, source := str ":[key]" } }

/-- Options deduplicating without sorting, for the C8 witness. -/
def c8Opts : ResolvedVuenifyOptions :=
  { wOptsOrder with
      sortClasses := false, removeDuplicates := true,
      orderAttributes := false, orderDirectives := false }

/-- Options with both class flags off, for the C8 witness. -/
def c8OptsOff : ResolvedVuenifyOptions :=
  { wOptsOrder with
      sortClasses := false, removeDuplicates := false,
      orderAttributes := false, orderDirectives := false }

/-- Class attribute `class="b a b c"`. -/
def c8Attr : AttributeNode :=
  { name := str "class", value := some (str "b a b c"),
    loc := { startOffset := 5, endOffset := 20, source := str "class=\"b a b c\"" } }

/-- Priority list with 1001 entries: the configured name `zz` receives the
rank 1000, equal to the fallback weight of absent names. -/
def c4Order : List Str := List.replicate 1000 (str "q") ++ [str "zz"]

/-- Directive props named `aa` (absent from `c4Order`) and `zz` (present). -/
def c4Props : List PropNode :=
  [wDir "aa" "x" "v-aa=\"x\"" 5 13, wDir "zz" "y" "v-zz=\"y\"" 14 22]

/-- Well-formedness of a parsed prop node, guaranteed by the parsing
collaborator: a class attribute named `class` whose value contains an
apostrophe shows that apostrophe in its raw attribute text (the value is a
substring of that text), and a directive's argument and modifier names
contain no `=` (the parser never puts the value separator inside them). -/
def propWF : PropNode → Bool
  | PropNode.attr a =>
    !(decide (a.name = str "class")) ||
      (match a.value with
       | none => true
       | some v => !(v.contains '\'') || a.loc.source.contains '\'')
  | PropNode.dir d =>
    !((d.arg.getD []).contains '=') && d.modifiers.all fun m => !(m.contains '=')

/-! Basic laws of the code-point order on text. -/

theorem ltStr_irrefl : ∀ a : Str, ltStr a a = false
  | [] => rfl
  | c :: cs => by simp [ltStr, ltStr_irrefl cs]

theorem char_eq_of_toNat_eq {a b : Char} (h : a.toNat = b.toNat) : a = b :=
  Char.ext (UInt32.toNat.inj h)

theorem ltStr_asymm : ∀ a b : Str, ltStr a b = true → ltStr b a = false
  | [], [], h => by simp [ltStr] at h
  | [], _ :: _, _ => rfl
  | _ :: _, [], h => by simp [ltStr] at h
  | a :: as, b :: bs, h => by
    simp only [ltStr] at h ⊢
    rcases Nat.lt_trichotomy a.toNat b.toNat with hlt | heq | hgt
    · simp [hlt, Nat.not_lt.mpr (Nat.le_of_lt hlt)]
    · simp only [heq, Nat.lt_irrefl, if_false] at h ⊢
      exact ltStr_asymm as bs h
    · simp [hgt, Nat.not_lt.mpr (Nat.le_of_lt hgt)] at h

theorem ltStr_trans : ∀ a b c : Str, ltStr a b = true → ltStr b c = true → ltStr a c = true
  | [], [], _, h1, _ => by simp [ltStr] at h1
  | [], _ :: _, [], _, h2 => by simp [ltStr] at h2
  | [], _ :: _, _ :: _, _, _ => rfl
  | _ :: _, [], _, h1, _ => by simp [ltStr] at h1
  | a :: as, b :: bs, [], _, h2 => by simp [ltStr] at h2
  | a :: as, b :: bs, c :: cs, h1, h2 => by
    simp only [ltStr] at h1 h2 ⊢
    rcases Nat.lt_trichotomy a.toNat b.toNat with hab | hab | hab
    · rcases Nat.lt_trichotomy b.toNat c.toNat with hbc | hbc | hbc
      · simp [Nat.lt_trans hab hbc]
      · simp [hbc ▸ hab]
      · simp [Nat.not_lt.mpr (Nat.le_of_lt hbc), hbc] at h2
    · rw [hab]
      rcases Nat.lt_trichotomy b.toNat c.toNat with hbc | hbc | hbc
      · simp [hbc]
      · simp only [hbc, Nat.lt_irrefl, if_false] at h1 h2 ⊢
        rw [hab, hbc] at h1
        simp only [Nat.lt_irrefl, if_false] at h1
        exact ltStr_trans as bs cs h1 h2
      · simp [Nat.not_lt.mpr (Nat.le_of_lt hbc), hbc] at h2
    · simp [Nat.not_lt.mpr (Nat.le_of_lt hab), hab] at h1

theorem ltStr_total : ∀ a b : Str, a ≠ b → ltStr a b = true ∨ ltStr b a = true
  | [], [], h => absurd rfl h
  | [], _ :: _, _ => Or.inl rfl
  | _ :: _, [], _ => Or.inr rfl
  | a :: as, b :: bs, h => by
    rcases Nat.lt_trichotomy a.toNat b.toNat with hab | hab | hab
    · exact Or.inl (by simp [ltStr, hab])
    · have hchar : a = b := char_eq_of_toNat_eq hab
      subst hchar
      have hne : as ≠ bs := fun hh => h (hh ▸ rfl)
      rcases ltStr_total as bs hne with h1 | h1
      · exact Or.inl (by simp [ltStr, h1])
      · exact Or.inr (by simp [ltStr, h1])
    · exact Or.inr (by simp [ltStr, hab])

/-! Sign laws shared by the comparators of the source. -/

/-- Laws making an integer comparator a total preorder by sign; every
comparator in the source satisfies them. -/
structure CmpLaws (cmp : α → α → Int) : Prop where
  sym0 : ∀ a b, cmp a b = 0 → cmp b a = 0
  asym : ∀ a b, 0 < cmp a b → cmp b a < 0
  trans_lt : ∀ a b c, cmp a b < 0 → cmp b c < 0 → cmp a c < 0
  zero_lt : ∀ a b c, cmp a b = 0 → cmp b c < 0 → cmp a c < 0
  lt_zero : ∀ a b c, cmp a b < 0 → cmp b c = 0 → cmp a c < 0
  trans0 : ∀ a b c, cmp a b = 0 → cmp b c = 0 → cmp a c = 0

theorem asciiCompare_eq_zero_iff (a b : Str) : asciiCompare a b = 0 ↔ a = b := by
  unfold asciiCompare
  split
  · simp [*]
  · split <;> simp [*]

theorem asciiCompare_lt_zero_iff (a b : Str) : asciiCompare a b < 0 ↔ ltStr a b = true := by
  unfold asciiCompare
  split
  · rename_i h
    subst h
    simp [ltStr_irrefl]
  · split
    · simp [*]
    · rename_i h1 h2
      constructor
      · intro h; omega
      · intro h; exact absurd h h2

theorem asciiCompare_laws : CmpLaws asciiCompare := by
  constructor
  · intro a b h
    rw [asciiCompare_eq_zero_iff] at h ⊢
    exact h.symm
  · intro a b h
    rw [asciiCompare_lt_zero_iff]
    unfold asciiCompare at h
    split at h
    · omega
    · split at h
      · omega
      · rename_i hne hnlt
        rcases ltStr_total a b hne with h1 | h1
        · exact absurd h1 hnlt
        · exact h1
  · intro a b c h1 h2
    rw [asciiCompare_lt_zero_iff] at h1 h2 ⊢
    exact ltStr_trans _ _ _ h1 h2
  · intro a b c h1 h2
    rw [asciiCompare_eq_zero_iff] at h1
    exact h1 ▸ h2
  · intro a b c h1 h2
    rw [asciiCompare_eq_zero_iff] at h2
    exact h2 ▸ h1
  · intro a b c h1 h2
    rw [asciiCompare_eq_zero_iff] at h1 h2 ⊢
    exact h1.trans h2

/-! Insertion-sort lemmas. -/

theorem insertSorted_perm (le : α → α → Bool) (a : α) :
    ∀ l : List α, (insertSorted le a l).Perm (a :: l)
  | [] => List.Perm.refl _
  | b :: bs => by
    simp only [insertSorted]
    split
    · exact List.Perm.refl _
    · exact ((insertSorted_perm le a bs).cons b).trans (List.Perm.swap a b bs)

theorem mem_insertSorted {le : α → α → Bool} {a x : α} {l : List α} :
    x ∈ insertSorted le a l ↔ x = a ∨ x ∈ l := by
  rw [(insertSorted_perm le a l).mem_iff]
  simp

theorem pairwise_insertSorted {le : α → α → Bool}
    (htot : ∀ a b, le a b = true ∨ le b a = true)
    (htrans : ∀ a b c, le a b = true → le b c = true → le a c = true)
    (a : α) : ∀ {l : List α}, l.Pairwise (fun x y => le x y = true) →
      (insertSorted le a l).Pairwise (fun x y => le x y = true)
  | [], _ => by simp [insertSorted]
  | b :: bs, h => by
    rw [List.pairwise_cons] at h
    obtain ⟨hb, hbs⟩ := h
    simp only [insertSorted]
    split
    · rename_i hab
      rw [List.pairwise_cons]
      refine ⟨fun y hy => ?_, List.pairwise_cons.mpr ⟨hb, hbs⟩⟩
      rcases List.mem_cons.mp hy with rfl | hy
      · exact hab
      · exact htrans _ _ _ hab (hb y hy)
    · rename_i hab
      have hba : le b a = true := by
        rcases htot a b with h | h
        · exact absurd h hab
        · exact h
      rw [List.pairwise_cons]
      refine ⟨fun y hy => ?_, pairwise_insertSorted htot htrans a hbs⟩
      rcases mem_insertSorted.mp hy with rfl | hy
      · exact hba
      · exact hb y hy

theorem sortByLe_perm (le : α → α → Bool) : ∀ l : List α, (sortByLe le l).Perm l
  | [] => List.Perm.refl _
  | a :: as => (insertSorted_perm le a (sortByLe le as)).trans ((sortByLe_perm le as).cons a)

theorem pairwise_sortByLe {le : α → α → Bool}
    (htot : ∀ a b, le a b = true ∨ le b a = true)
    (htrans : ∀ a b c, le a b = true → le b c = true → le a c = true) :
    ∀ l : List α, (sortByLe le l).Pairwise (fun x y => le x y = true)
  | [] => List.Pairwise.nil
  | a :: as => pairwise_insertSorted htot htrans a (pairwise_sortByLe htot htrans as)

theorem sortByLe_of_sorted {le : α → α → Bool} :
    ∀ {l : List α}, l.Pairwise (fun x y => le x y = true) → sortByLe le l = l
  | [], _ => rfl
  | a :: as, h => by
    rw [List.pairwise_cons] at h
    simp only [sortByLe, sortByLe_of_sorted h.2]
    cases as with
    | nil => rfl
    | cons b bs => simp [insertSorted, h.1 b (List.mem_cons_self b bs)]

/-! Lemmas about the source `stableSort`. -/

theorem pairLe_iff {cmp : α → α → Int} {a b : Nat × α} :
    pairLe cmp a b = true ↔ cmp a.2 b.2 < 0 ∨ (cmp a.2 b.2 = 0 ∧ a.1 ≤ b.1) := by
  unfold pairLe
  split <;> rename_i h <;> simp [h] <;> omega

theorem pairLe_total {cmp : α → α → Int} (laws : CmpLaws cmp) (a b : Nat × α) :
    pairLe cmp a b = true ∨ pairLe cmp b a = true := by
  rcases lt_trichotomy (cmp a.2 b.2) 0 with h | h | h
  · exact Or.inl (pairLe_iff.mpr (Or.inl h))
  · rcases Nat.le_total a.1 b.1 with h1 | h1
    · exact Or.inl (pairLe_iff.mpr (Or.inr ⟨h, h1⟩))
    · exact Or.inr (pairLe_iff.mpr (Or.inr ⟨laws.sym0 _ _ h, h1⟩))
  · exact Or.inr (pairLe_iff.mpr (Or.inl (laws.asym _ _ h)))

theorem pairLe_trans {cmp : α → α → Int} (laws : CmpLaws cmp) (a b c : Nat × α)
    (h1 : pairLe cmp a b = true) (h2 : pairLe cmp b c = true) : pairLe cmp a c = true := by
  rcases pairLe_iff.mp h1 with h1 | ⟨h1, h1i⟩ <;> rcases pairLe_iff.mp h2 with h2 | ⟨h2, h2i⟩
  · exact pairLe_iff.mpr (Or.inl (laws.trans_lt _ _ _ h1 h2))
  · exact pairLe_iff.mpr (Or.inl (laws.lt_zero _ _ _ h1 h2))
  · exact pairLe_iff.mpr (Or.inl (laws.zero_lt _ _ _ h1 h2))
  · exact pairLe_iff.mpr (Or.inr ⟨laws.trans0 _ _ _ h1 h2, Nat.le_trans h1i h2i⟩)

theorem stableSort_perm (l : List α) (cmp : α → α → Int) : (stableSort l cmp).Perm l := by
  unfold stableSort
  exact (((sortByLe_perm (pairLe cmp) l.enum).map Prod.snd).trans
    (by rw [List.enum_map_snd]))

theorem pairwise_enumFrom {R : α → α → Prop} :
    ∀ (n : Nat) {l : List α}, l.Pairwise R →
      (l.enumFrom n).Pairwise (fun p q => p.1 < q.1 ∧ R p.2 q.2)
  | _, [], _ => List.Pairwise.nil
  | n, a :: as, h => by
    rw [List.pairwise_cons] at h
    rw [List.enumFrom_cons, List.pairwise_cons]
    refine ⟨fun q hq => ?_, pairwise_enumFrom (n + 1) h.2⟩
    obtain ⟨hle, _, hget⟩ := List.mem_enumFrom (x := q.2) (i := q.1) (j := n + 1) (by simpa using hq)
    refine ⟨by omega, h.1 q.2 ?_⟩
    rw [hget]
    exact List.getElem_mem _

theorem pairwise_enum {R : α → α → Prop} {l : List α} (h : l.Pairwise R) :
    l.enum.Pairwise (fun p q => p.1 < q.1 ∧ R p.2 q.2) :=
  pairwise_enumFrom 0 h

theorem stableSort_of_sorted {cmp : α → α → Int} {l : List α}
    (h : l.Pairwise (fun x y => cmp x y ≤ 0)) : stableSort l cmp = l := by
  unfold stableSort
  rw [sortByLe_of_sorted, List.enum_map_snd]
  refine (pairwise_enum h).imp ?_
  rintro a b ⟨hidx, hcmp⟩
  rcases lt_or_eq_of_le hcmp with h1 | h1
  · exact pairLe_iff.mpr (Or.inl h1)
  · exact pairLe_iff.mpr (Or.inr ⟨h1, Nat.le_of_lt hidx⟩)

theorem pairwise_stableSort {cmp : α → α → Int} (laws : CmpLaws cmp) (l : List α) :
    (stableSort l cmp).Pairwise (fun x y => cmp x y ≤ 0) := by
  unfold stableSort
  refine List.Pairwise.map Prod.snd ?_ (pairwise_sortByLe (pairLe_total laws) (pairLe_trans laws) l.enum)
  intro a b hab
  rcases pairLe_iff.mp hab with h | ⟨h, _⟩
  · exact le_of_lt h
  · exact le_of_eq h

theorem stableSort_filter_of_ties {cmp : α → α → Int} (p : α → Bool)
    {l : List α} (laws : CmpLaws cmp)
    (h0 : ∀ x y, x ∈ l → y ∈ l → p x = true → p y = true → cmp x y = 0) :
    (stableSort l cmp).filter p = l.filter p := by
  have hperm : (sortByLe (pairLe cmp) l.enum).Perm l.enum := sortByLe_perm _ _
  have hsorted := pairwise_sortByLe (pairLe_total laws) (pairLe_trans laws) l.enum
  set s := sortByLe (pairLe cmp) l.enum with hs
  have hfp : (s.filter fun e => p e.2).Perm (l.enum.filter fun e => p e.2) :=
    hperm.filter _
  have hmemsnd : ∀ q ∈ s, q.2 ∈ l := by
    intro q hq
    exact List.snd_mem_of_mem_enum (hperm.mem_iff.mp hq)
  have hfs_le : (s.filter fun e => p e.2).Pairwise (fun a b => a.1 ≤ b.1) := by
    refine (hsorted.filter _).imp_of_mem ?_
    intro a b ha hb hab
    have hpa := (List.mem_filter.mp ha).2
    have hpb := (List.mem_filter.mp hb).2
    have hsa := hmemsnd a (List.mem_filter.mp ha).1
    have hsb := hmemsnd b (List.mem_filter.mp hb).1
    have hz : cmp a.2 b.2 = 0 := h0 _ _ hsa hsb hpa hpb
    rcases pairLe_iff.mp hab with h | ⟨_, h⟩
    · omega
    · exact h
  have hnodup_s : (s.map Prod.fst).Nodup := by
    rw [(hperm.map Prod.fst).nodup_iff, List.enum_map_fst]
    exact List.nodup_range _
  have hfs_ne : (s.filter fun e => p e.2).Pairwise (fun a b => a.1 ≠ b.1) := by
    have hsub : ((s.filter fun e => p e.2).map Prod.fst).Sublist (s.map Prod.fst) :=
      (List.filter_sublist s).map Prod.fst
    have := hsub.nodup hnodup_s
    exact List.pairwise_map.mp this
  have hfs_lt : (s.filter fun e => p e.2).Pairwise (fun a b => a.1 < b.1) :=
    (hfs_le.and hfs_ne).imp fun h => Nat.lt_of_le_of_ne h.1 h.2
  have henum_lt : l.enum.Pairwise (fun a b : Nat × α => a.1 < b.1) := by
    have := List.pairwise_lt_range l.length
    rw [← List.enum_map_fst l] at this
    exact List.pairwise_map.mp this
  have hfe_lt : (l.enum.filter fun e => p e.2).Pairwise (fun a b => a.1 < b.1) :=
    henum_lt.filter _
  haveI : IsAntisymm (Nat × α) (fun a b => a.1 < b.1) :=
    ⟨fun a b h1 h2 => absurd (Nat.lt_trans h1 h2) (Nat.lt_irrefl _)⟩
  have heq : (s.filter fun e => p e.2) = (l.enum.filter fun e => p e.2) :=
    List.eq_of_perm_of_sorted hfp hfs_lt hfe_lt
  have hmap : ∀ t : List (Nat × α), (t.map Prod.snd).filter p = (t.filter fun e => p e.2).map Prod.snd := by
    intro t
    rw [List.filter_map]
    rfl
  calc (stableSort l cmp).filter p
      = (s.filter fun e => p e.2).map Prod.snd := by rw [stableSort, ← hs, hmap]
    _ = (l.enum.filter fun e => p e.2).map Prod.snd := by rw [heq]
    _ = (l.enum.map Prod.snd).filter p := (hmap l.enum).symm
    _ = l.filter p := by rw [List.enum_map_snd]

/-! Comparator laws for the two prop comparators. -/

theorem cmpLaws_of_eq {cmp₁ cmp₂ : α → α → Int} (h : ∀ a b, cmp₁ a b = cmp₂ a b)
    (laws : CmpLaws cmp₁) : CmpLaws cmp₂ := by
  constructor
  · intro a b hz
    rw [← h] at hz ⊢
    exact laws.sym0 _ _ hz
  · intro a b hz
    rw [← h] at hz ⊢
    exact laws.asym _ _ hz
  · intro a b c h1 h2
    rw [← h] at h1 h2 ⊢
    exact laws.trans_lt _ _ _ h1 h2
  · intro a b c h1 h2
    rw [← h] at h1 h2 ⊢
    exact laws.zero_lt _ _ _ h1 h2
  · intro a b c h1 h2
    rw [← h] at h1 h2 ⊢
    exact laws.lt_zero _ _ _ h1 h2
  · intro a b c h1 h2
    rw [← h] at h1 h2 ⊢
    exact laws.trans0 _ _ _ h1 h2

theorem cmpLaws_natStr (k : α → Nat) (s : α → Str) :
    CmpLaws (fun a b =>
      if k a ≠ k b then ((k a : Int) - (k b : Int)) else asciiCompare (s a) (s b)) := by
  have hA := asciiCompare_laws
  constructor
  · intro a b hz
    by_cases hk : k a = k b
    · rw [if_neg (not_ne_iff.mpr hk)] at hz
      rw [if_neg (not_ne_iff.mpr hk.symm)]
      exact hA.sym0 _ _ hz
    · simp only [if_pos hk] at hz
      omega
  · intro a b hz
    by_cases hk : k a = k b
    · rw [if_neg (not_ne_iff.mpr hk)] at hz
      rw [if_neg (not_ne_iff.mpr hk.symm)]
      exact hA.asym _ _ hz
    · simp only [if_pos hk] at hz
      simp only [if_pos (by omega : ¬ k b = k a)]
      omega
  · intro a b c h1 h2
    by_cases hab : k a = k b <;> by_cases hbc : k b = k c
    · rw [if_neg (not_ne_iff.mpr hab)] at h1
      rw [if_neg (not_ne_iff.mpr hbc)] at h2
      rw [if_neg (not_ne_iff.mpr (hab.trans hbc))]
      exact hA.trans_lt _ _ _ h1 h2
    · simp only [if_pos (by omega : ¬ k b = k c)] at h2
      have : ¬ k a = k c := by omega
      simp only [if_pos this]
      omega
    · simp only [if_pos hab] at h1
      have : ¬ k a = k c := by omega
      simp only [if_pos this]
      omega
    · simp only [if_pos hab] at h1
      simp only [if_pos hbc] at h2
      have : ¬ k a = k c := by omega
      simp only [if_pos this]
      omega
  · intro a b c h1 h2
    by_cases hab : k a = k b
    · by_cases hbc : k b = k c
      · rw [if_neg (not_ne_iff.mpr hab)] at h1
        rw [if_neg (not_ne_iff.mpr hbc)] at h2
        rw [if_neg (not_ne_iff.mpr (hab.trans hbc))]
        exact hA.zero_lt _ _ _ h1 h2
      · simp only [if_pos hbc] at h2
        have : ¬ k a = k c := by omega
        simp only [if_pos this]
        omega
    · simp only [if_pos hab] at h1
      omega
  · intro a b c h1 h2
    by_cases hbc : k b = k c
    · by_cases hab : k a = k b
      · rw [if_neg (not_ne_iff.mpr hab)] at h1
        rw [if_neg (not_ne_iff.mpr hbc)] at h2
        rw [if_neg (not_ne_iff.mpr (hab.trans hbc))]
        exact hA.lt_zero _ _ _ h1 h2
      · simp only [if_pos hab] at h1
        have : ¬ k a = k c := by omega
        simp only [if_pos this]
        omega
    · simp only [if_pos hbc] at h2
      omega
  · intro a b c h1 h2
    by_cases hab : k a = k b
    · by_cases hbc : k b = k c
      · rw [if_neg (not_ne_iff.mpr hab)] at h1
        rw [if_neg (not_ne_iff.mpr hbc)] at h2
        rw [if_neg (not_ne_iff.mpr (hab.trans hbc))]
        exact hA.trans0 _ _ _ h1 h2
      · simp only [if_pos hbc] at h2
        omega
    · simp only [if_pos hab] at h1
      omega

theorem dirPropCompare_laws (order : List Str) : CmpLaws (dirPropCompare order) := by
  refine @cmpLaws_of_eq PropNode (fun a b =>
    if (fun p => directiveWeight order (propName p)) a ≠ (fun p => directiveWeight order (propName p)) b
    then (((fun p => directiveWeight order (propName p)) a : Int) - ((fun p => directiveWeight order (propName p)) b : Int))
    else asciiCompare (propName a) (propName b)) (dirPropCompare order) ?_ (cmpLaws_natStr _ propName)
  intro a b
  rfl

theorem attrPropCompare_eq (a b : PropNode) :
    attrPropCompare a b =
      (fun a b =>
        if (fun p => if attrHasValue p then 0 else 1) a ≠ (fun p => if attrHasValue p then 0 else 1) b
        then (((fun p => if attrHasValue p then (0 : Nat) else 1) a : Int) - ((fun p => if attrHasValue p then (0 : Nat) else 1) b : Int))
        else asciiCompare (propName a) (propName b)) a b := by
  unfold attrPropCompare
  cases hva : attrHasValue a <;> cases hvb : attrHasValue b <;> simp [hva, hvb]

theorem attrPropCompare_laws : CmpLaws attrPropCompare :=
  cmpLaws_of_eq (fun a b => (attrPropCompare_eq a b).symm) (cmpLaws_natStr _ propName)

/-! Splice-back lemmas. -/

theorem spliceBy_nil (isK : PropNode → Bool) (ds : List PropNode) :
    spliceBy isK [] ds = [] := rfl

theorem spliceBy_cons_pos {isK : PropNode → Bool} {p : PropNode} (ps : List PropNode)
    (d : PropNode) (ds2 : List PropNode) (hk : isK p = true) :
    spliceBy isK (p :: ps) (d :: ds2) = d :: spliceBy isK ps ds2 := by
  simp [spliceBy, hk]

theorem spliceBy_cons_pos_nil {isK : PropNode → Bool} {p : PropNode} (ps : List PropNode)
    (hk : isK p = true) :
    spliceBy isK (p :: ps) [] = p :: spliceBy isK ps [] := by
  simp [spliceBy, hk]

theorem spliceBy_cons_neg {isK : PropNode → Bool} {p : PropNode} (ps ds : List PropNode)
    (hk : isK p = false) :
    spliceBy isK (p :: ps) ds = p :: spliceBy isK ps ds := by
  simp [spliceBy, hk]

theorem length_spliceBy (isK : PropNode → Bool) :
    ∀ (l ds : List PropNode), (spliceBy isK l ds).length = l.length
  | [], _ => rfl
  | p :: ps, ds => by
    cases hk : isK p with
    | true =>
      match ds with
      | d :: ds2 => rw [spliceBy_cons_pos ps d ds2 hk]; simp [length_spliceBy isK ps ds2]
      | [] => rw [spliceBy_cons_pos_nil ps hk]; simp [length_spliceBy isK ps []]
    | false => rw [spliceBy_cons_neg ps ds hk]; simp [length_spliceBy isK ps ds]

theorem spliceBy_self (isK : PropNode → Bool) :
    ∀ l : List PropNode, spliceBy isK l (l.filter isK) = l
  | [] => rfl
  | p :: ps => by
    cases hk : isK p with
    | true =>
      rw [List.filter_cons_of_pos hk, spliceBy_cons_pos ps p _ hk, spliceBy_self isK ps]
    | false =>
      rw [List.filter_cons_of_neg (by simp [hk]), spliceBy_cons_neg ps _ hk, spliceBy_self isK ps]

theorem getElem?_spliceBy_not (isK : PropNode → Bool) :
    ∀ (l ds : List PropNode) (i : Nat) (p : PropNode),
      l[i]? = some p → isK p = false → (spliceBy isK l ds)[i]? = some p
  | [], _, i, p, h, _ => by simp at h
  | q :: ps, ds, 0, p, h, hp => by
    simp only [List.getElem?_cons_zero, Option.some.injEq] at h
    subst h
    rw [spliceBy_cons_neg ps ds hp]
    simp
  | q :: ps, ds, i + 1, p, h, hp => by
    simp only [List.getElem?_cons_succ] at h
    cases hk : isK q with
    | true =>
      match ds with
      | d :: ds2 =>
        rw [spliceBy_cons_pos ps d ds2 hk]
        simpa using getElem?_spliceBy_not isK ps ds2 i p h hp
      | [] =>
        rw [spliceBy_cons_pos_nil ps hk]
        simpa using getElem?_spliceBy_not isK ps [] i p h hp
    | false =>
      rw [spliceBy_cons_neg ps ds hk]
      simpa using getElem?_spliceBy_not isK ps ds i p h hp

theorem filter_spliceBy (isK : PropNode → Bool) :
    ∀ (l ds : List PropNode), (∀ d ∈ ds, isK d = true) →
      ds.length = (l.filter isK).length → (spliceBy isK l ds).filter isK = ds
  | [], ds, _, hlen => by
    simp only [List.filter_nil, List.length_nil] at hlen
    simp [spliceBy, List.length_eq_zero.mp hlen]
  | p :: ps, ds, hall, hlen => by
    cases hk : isK p with
    | true =>
      rw [List.filter_cons_of_pos hk] at hlen
      match ds with
      | [] => simp at hlen
      | d :: ds2 =>
        rw [spliceBy_cons_pos ps d ds2 hk]
        rw [List.filter_cons_of_pos (hall d (List.mem_cons_self d ds2))]
        rw [filter_spliceBy isK ps ds2 (fun x hx => hall x (List.mem_cons_of_mem d hx)) (by simpa using hlen)]
    | false =>
      rw [List.filter_cons_of_neg (by simp [hk])] at hlen
      rw [spliceBy_cons_neg ps ds hk]
      rw [List.filter_cons_of_neg (by simp [hk])]
      exact filter_spliceBy isK ps ds hall hlen

theorem filter_spliceBy_other {isK q : PropNode → Bool}
    (hq : ∀ x, isK x = true → q x = false) :
    ∀ (l ds : List PropNode), (∀ d ∈ ds, isK d = true) →
      (spliceBy isK l ds).filter q = l.filter q
  | [], _, _ => by simp [spliceBy]
  | p :: ps, ds, hall => by
    cases hk : isK p with
    | true =>
      match ds with
      | d :: ds2 =>
        rw [spliceBy_cons_pos ps d ds2 hk]
        rw [List.filter_cons_of_neg (by simp [hq d (hall d (List.mem_cons_self d ds2))])]
        rw [List.filter_cons_of_neg (by simp [hq p hk])]
        exact filter_spliceBy_other hq ps ds2 (fun x hx => hall x (List.mem_cons_of_mem d hx))
      | [] =>
        rw [spliceBy_cons_pos_nil ps hk]
        rw [List.filter_cons_of_neg (by simp [hq p hk])]
        rw [List.filter_cons_of_neg (by simp [hq p hk])]
        exact filter_spliceBy_other hq ps [] (by simp)
    | false =>
      rw [spliceBy_cons_neg ps ds hk]
      by_cases hqp : q p = true
      · rw [List.filter_cons_of_pos hqp, List.filter_cons_of_pos hqp]
        rw [filter_spliceBy_other hq ps ds hall]
      · rw [List.filter_cons_of_neg (by simp [hqp]), List.filter_cons_of_neg (by simp [hqp])]
        exact filter_spliceBy_other hq ps ds hall

theorem map_isK_spliceBy (isK : PropNode → Bool) :
    ∀ (l ds : List PropNode), (∀ d ∈ ds, isK d = true) →
      ds.length = (l.filter isK).length → (spliceBy isK l ds).map isK = l.map isK
  | [], _, _, _ => by simp [spliceBy]
  | p :: ps, ds, hall, hlen => by
    cases hk : isK p with
    | true =>
      rw [List.filter_cons_of_pos hk] at hlen
      match ds with
      | [] => simp at hlen
      | d :: ds2 =>
        rw [spliceBy_cons_pos ps d ds2 hk]
        simp only [List.map_cons]
        rw [hall d (List.mem_cons_self d ds2), hk]
        rw [map_isK_spliceBy isK ps ds2 (fun x hx => hall x (List.mem_cons_of_mem d hx)) (by simpa using hlen)]
    | false =>
      rw [List.filter_cons_of_neg (by simp [hk])] at hlen
      rw [spliceBy_cons_neg ps ds hk]
      simp only [List.map_cons]
      rw [map_isK_spliceBy isK ps ds hall hlen]

/-! Deduplication lemmas. -/

theorem dedupFirstAux_sublist (seen : List Str) : ∀ l : List Str, (dedupFirstAux seen l).Sublist l
  | [] => List.Sublist.refl _
  | x :: xs => by
    simp only [dedupFirstAux]
    split
    · exact (dedupFirstAux_sublist seen xs).cons x
    · exact (dedupFirstAux_sublist (x :: seen) xs).cons₂ x

theorem mem_dedupFirstAux : ∀ {seen l : List Str} {x : Str},
    x ∈ dedupFirstAux seen l ↔ x ∈ l ∧ x ∉ seen := by
  intro seen l
  induction l generalizing seen with
  | nil => simp [dedupFirstAux]
  | cons y ys ih =>
    intro x
    simp only [dedupFirstAux]
    split
    · rename_i hy
      rw [ih]
      simp only [List.mem_cons]
      constructor
      · rintro ⟨hx, hn⟩
        exact ⟨Or.inr hx, hn⟩
      · rintro ⟨hx | hx, hn⟩
        · exact absurd (hx ▸ hy) hn
        · exact ⟨hx, hn⟩
    · rename_i hy
      simp only [List.mem_cons, ih, List.mem_cons, not_or]
      constructor
      · rintro (rfl | ⟨hx, hn1, hn2⟩)
        · exact ⟨Or.inl rfl, hy⟩
        · exact ⟨Or.inr hx, hn2⟩
      · rintro ⟨rfl | hx, hn⟩
        · exact Or.inl rfl
        · by_cases hxy : x = y
          · exact Or.inl hxy
          · exact Or.inr ⟨hx, hxy, hn⟩

theorem nodup_dedupFirstAux : ∀ (seen l : List Str), (dedupFirstAux seen l).Nodup
  | seen, [] => List.nodup_nil
  | seen, y :: ys => by
    simp only [dedupFirstAux]
    split
    · exact nodup_dedupFirstAux seen ys
    · refine List.nodup_cons.mpr ⟨?_, nodup_dedupFirstAux (y :: seen) ys⟩
      intro hmem
      exact (mem_dedupFirstAux.mp hmem).2 (List.mem_cons_self y seen)

theorem dedupFirstAux_of_nodup : ∀ (seen l : List Str), l.Nodup →
    (∀ x ∈ l, x ∉ seen) → dedupFirstAux seen l = l
  | seen, [], _, _ => rfl
  | seen, y :: ys, hnd, hout => by
    simp only [dedupFirstAux]
    rw [if_neg (hout y (List.mem_cons_self y ys))]
    congr 1
    refine dedupFirstAux_of_nodup (y :: seen) ys (List.nodup_cons.mp hnd).2 ?_
    intro x hx
    simp only [List.mem_cons, not_or]
    exact ⟨fun hxy => (List.nodup_cons.mp hnd).1 (hxy ▸ hx), hout x (List.mem_cons_of_mem y hx)⟩

/-! Positional-difference helper. -/

theorem eq_of_mem_zip_self : ∀ {l : List PropNode} {a b : PropNode}, (a, b) ∈ l.zip l → a = b
  | [], _, _, h => by simp at h
  | x :: xs, a, b, h => by
    rw [List.zip_cons_cons, List.mem_cons] at h
    rcases h with h | h
    · rw [Prod.mk.injEq] at h
      rw [h.1, h.2]
    · exact eq_of_mem_zip_self h

theorem someDiffers_self (l : List PropNode) : someDiffers l l = false := by
  simp only [someDiffers, List.any_eq_false]
  intro pq hpq
  simp only [decide_eq_true_eq, Decidable.not_not]
  exact eq_of_mem_zip_self ((Prod.mk.eta (p := pq)) ▸ hpq)

/-! Characterization of the rebuilder's successful result. -/

theorem build_some_spec {e : ElementNode} {off : Nat} {o : ResolvedVuenifyOptions} {r : Replacement}
    (h : buildUnifiedAttributeReplacement e off o = some r) :
    ∃ (p0 : PropNode) (rest : List PropNode), e.props = p0 :: rest ∧
      buildChanged o (p0 :: rest) = true ∧
      r.start = off + (propLoc p0).startOffset ∧
      r.endPos = off + (propLoc ((p0 :: rest).getLast (List.cons_ne_nil p0 rest))).endOffset ∧
      r.value = List.intercalate (computeSeparator e o)
        ((buildSorted o (p0 :: rest)).map fun p => (propLoc p).source) := by
  unfold buildUnifiedAttributeReplacement at h
  split at h
  · exact absurd h (by simp)
  · rename_i p0 rest heq
    split at h
    · rename_i hch
      obtain rfl := Option.some.inj h
      exact ⟨p0, rest, heq, hch, rfl, rfl, rfl⟩
    · exact absurd h (by simp)

theorem build_eq_none_of_not_changed (e : ElementNode) (off : Nat)
    (o : ResolvedVuenifyOptions) (h : buildChanged o e.props = false) :
    buildUnifiedAttributeReplacement e off o = none := by
  unfold buildUnifiedAttributeReplacement
  split
  · rfl
  · rename_i p0 rest heq
    rw [heq] at h
    simp [h]

/-- C3 (span exactness): whenever the rebuilder emits a replacement for an
element, the replacement's half-open range is exactly
`[props[0].sourceSpan.start, props[last].sourceSpan.end)` of the original
prop list shifted by the template offset; per-prop rewriting and the
reordering passes never change the covered range, because the bounds are
taken from the untouched original list. -/
theorem claim_C3 (e : ElementNode) (off : Nat) (o : ResolvedVuenifyOptions)
    (r : Replacement) (h : buildUnifiedAttributeReplacement e off o = some r) :
    ∃ p0 pl, e.props.head? = some p0 ∧ e.props.getLast? = some pl ∧
      r.start = off + (propLoc p0).startOffset ∧
      r.endPos = off + (propLoc pl).endOffset := by
  obtain ⟨p0, rest, heq, _, hs, hel, _⟩ := build_some_spec h
  refine ⟨p0, (p0 :: rest).getLast (List.cons_ne_nil p0 rest), ?_, ?_, hs, hel⟩
  · rw [heq, List.head?_cons]
  · rw [heq, List.getLast?_eq_getLast _ (List.cons_ne_nil p0 rest)]

/-- Witness for C3 at the repository's directive-ordering example. -/
theorem claim_C3_witness :
    ∃ p0 pl, wElemDirs.props.head? = some p0 ∧ wElemDirs.props.getLast? = some pl ∧
      c3Rep.start = 10 + (propLoc p0).startOffset ∧
      c3Rep.endPos = 10 + (propLoc pl).endOffset :=
  claim_C3 wElemDirs 10 wOptsOrder c3Rep (by decide)

/-- C9 (layout strategy): the rebuilt block joins the final prop texts with
the computed separator, and that separator is the exact original gap between
the end of the first prop and the start of the second prop precisely when
`attributeLayout` is `preserve`, the block has more than one prop, and the
gap contains a newline; in every other case (inline mode, a single-prop or
empty block, or a gap without a newline) it is a single space. -/
theorem claim_C9 (e : ElementNode) (off : Nat) (o : ResolvedVuenifyOptions) :
    (∀ r, buildUnifiedAttributeReplacement e off o = some r →
      r.value = List.intercalate (computeSeparator e o)
        ((buildSorted o e.props).map fun p => (propLoc p).source)) ∧
    (∀ p0 p1 rest, e.props = p0 :: p1 :: rest →
      o.attributeLayout = AttributeLayout.preserve →
      computeSeparator e o =
        (if (sliceStr e.loc.source ((propLoc p0).endOffset - e.loc.startOffset)
              ((propLoc p1).startOffset - e.loc.startOffset)).contains '\n' = true
         then sliceStr e.loc.source ((propLoc p0).endOffset - e.loc.startOffset)
              ((propLoc p1).startOffset - e.loc.startOffset)
         else [' '])) ∧
    (o.attributeLayout = AttributeLayout.inl → computeSeparator e o = [' ']) ∧
    (∀ p0, e.props = [p0] → computeSeparator e o = [' ']) ∧
    (e.props = [] → computeSeparator e o = [' ']) := by
  refine ⟨?_, ?_, ?_, ?_, ?_⟩
  · intro r h
    obtain ⟨p0, rest, heq, _, _, _, hv⟩ := build_some_spec h
    rw [hv, heq]
  · intro p0 p1 rest heq hl
    unfold computeSeparator
    rw [heq]
    simp only [hl, if_pos rfl]
    rfl
  · intro hl
    unfold computeSeparator
    split
    · rw [if_neg (by rw [hl]; intro hc; cases hc)]
    · rfl
  · intro p0 heq
    unfold computeSeparator
    rw [heq]
  · intro heq
    unfold computeSeparator
    rw [heq]

/-- Witness for C9: a preserve-layout element whose original gap is a
newline and two spaces reuses that gap as the separator. -/
theorem claim_C9_witness : computeSeparator c9Elem c9Opts = str "\n  " := by
  have h := (claim_C9 c9Elem 0 c9Opts).2.1
    (wAttr "a" (some "1") "a=\"1\"" 5 10) (wAttr "b" (some "2") "b=\"2\"" 13 18) [] rfl rfl
  rw [h]
  decide

/-! Geometry of a well-formed prop block. -/

theorem head_start_lt_last_end :
    ∀ (p0 : PropNode) (rest : List PropNode),
      (∀ p ∈ p0 :: rest, (propLoc p).startOffset < (propLoc p).endOffset) →
      List.Chain' (fun p q => (propLoc p).endOffset ≤ (propLoc q).startOffset) (p0 :: rest) →
      (propLoc p0).startOffset <
        (propLoc ((p0 :: rest).getLast (List.cons_ne_nil p0 rest))).endOffset
  | p0, [], hwf, _ => hwf p0 (List.mem_cons_self p0 [])
  | p0, p1 :: rest, hwf, hch => by
    rw [List.getLast_cons (List.cons_ne_nil p1 rest)]
    have h1 := (List.chain'_cons.mp hch).1
    have h2 := head_start_lt_last_end p1 rest
      (fun p hp => hwf p (List.mem_cons_of_mem p0 hp)) (List.chain'_cons.mp hch).2
    have h0 := hwf p0 (List.mem_cons_self p0 (p1 :: rest))
    omega

/-- C2 (well-formed output): with parser-guaranteed prop data — positive
prop spans laid out left to right within each element, and element prop
blocks pairwise disjoint across the tree — every replacement the transform
collects has `start < end`, and the replacement ranges are pairwise
non-overlapping across the whole document, nested elements included. -/
theorem claim_C2 (elements : List ElementNode) (off : Nat) (o : ResolvedVuenifyOptions)
    (hwf : ∀ e ∈ elements, ∀ p ∈ e.props, (propLoc p).startOffset < (propLoc p).endOffset)
    (hch : ∀ e ∈ elements,
      List.Chain' (fun p q => (propLoc p).endOffset ≤ (propLoc q).startOffset) e.props)
    (hdisj : elements.Pairwise (fun e1 e2 =>
      blockEnd e1 ≤ blockStart e2 ∨ blockEnd e2 ≤ blockStart e1)) :
    (∀ r ∈ vuenifyTransformOnElements elements off o, r.start < r.endPos) ∧
    (vuenifyTransformOnElements elements off o).Pairwise
      (fun r1 r2 => r1.endPos ≤ r2.start ∨ r2.endPos ≤ r1.start) := by
  have hspan : ∀ e ∈ elements, ∀ r : Replacement,
      buildUnifiedAttributeReplacement e off o = some r →
      r.start = off + blockStart e ∧ r.endPos = off + blockEnd e ∧ r.start < r.endPos := by
    intro e he r hr
    obtain ⟨p0, rest, heq, _, hs, hel, _⟩ := build_some_spec hr
    have hbs : blockStart e = (propLoc p0).startOffset := by
      unfold blockStart
      rw [heq]
    have hbe : blockEnd e =
        (propLoc ((p0 :: rest).getLast (List.cons_ne_nil p0 rest))).endOffset := by
      unfold blockEnd
      rw [heq]
    have hlt := head_start_lt_last_end p0 rest
      (fun p hp => hwf e he p (heq ▸ hp)) (heq ▸ hch e he)
    refine ⟨hbs ▸ hs, hbe ▸ hel, ?_⟩
    omega
  constructor
  · intro r hr
    obtain ⟨e, he, hre⟩ := List.mem_filterMap.mp hr
    exact (hspan e he r hre).2.2
  · unfold vuenifyTransformOnElements
    rw [List.pairwise_filterMap]
    refine List.Pairwise.imp_of_mem ?_ hdisj
    intro e1 e2 he1 he2 hdj
    intro r1 hr1 r2 hr2
    rw [Option.mem_def] at hr1 hr2
    obtain ⟨ha1, hb1, _⟩ := hspan e1 he1 r1 hr1
    obtain ⟨ha2, hb2, _⟩ := hspan e2 he2 r2 hr2
    rcases hdj with h | h
    · left
      omega
    · right
      omega

/-- Witness for C2: two disjoint concrete elements. -/
theorem claim_C2_witness :
    (∀ r ∈ vuenifyTransformOnElements [wElemDirs, c2Elem2] 0 wOptsOrder, r.start < r.endPos) ∧
    (vuenifyTransformOnElements [wElemDirs, c2Elem2] 0 wOptsOrder).Pairwise
      (fun r1 r2 => r1.endPos ≤ r2.start ∨ r2.endPos ≤ r1.start) :=
  claim_C2 [wElemDirs, c2Elem2] 0 wOptsOrder (by decide)
    (by
      intro e he
      rcases List.mem_cons.mp he with rfl | he
      · simp [wElemDirs, wDir, propLoc, List.chain'_cons]
      · rcases List.mem_cons.mp he with rfl | he
        · simp [c2Elem2, wAttr, propLoc, List.chain'_cons]
        · simp at he)
    (by decide)

/-! Singleton-block behavior of the ordering passes. -/

theorem stableSort_singleton (x : α) (cmp : α → α → Int) : stableSort [x] cmp = [x] := rfl

theorem orderDirectivesPass_singleton (order : List Str) (q : PropNode) :
    orderDirectivesPass order [q] = [q] := by
  unfold orderDirectivesPass
  cases q with
  | attr a =>
    rw [show List.filter isDirectiveNode [PropNode.attr a] = [] from rfl]
    rw [show stableSort ([] : List PropNode) (dirPropCompare order) = [] from rfl]
    rfl
  | dir d =>
    rw [show List.filter isDirectiveNode [PropNode.dir d] = [PropNode.dir d] from rfl]
    rw [stableSort_singleton]
    rfl

theorem orderAttributesPass_singleton (q : PropNode) :
    orderAttributesPass [q] = [q] := by
  unfold orderAttributesPass
  cases q with
  | attr a =>
    rw [show List.filter isAttributeNode [PropNode.attr a] = [PropNode.attr a] from rfl]
    rw [stableSort_singleton]
    rfl
  | dir d =>
    rw [show List.filter isAttributeNode [PropNode.dir d] = [] from rfl]
    rw [show stableSort ([] : List PropNode) attrPropCompare = [] from rfl]
    rfl

theorem intercalate_single (sep : Str) (x : Str) : List.intercalate sep [x] = x := by
  simp [List.intercalate]

theorem build_singleton (e : ElementNode) (off : Nat) (o : ResolvedVuenifyOptions)
    (p p' : PropNode) (hprops : e.props = [p]) (hp : transformProp o p = p') (hne : p' ≠ p) :
    buildUnifiedAttributeReplacement e off o =
      some { start := off + (propLoc p).startOffset,
             endPos := off + (propLoc p).endOffset,
             value := (propLoc p').source } := by
  unfold buildUnifiedAttributeReplacement
  split
  · rename_i hnil
    rw [hprops] at hnil
    cases hnil
  · rename_i p0 rest heq
    have h2 : [p] = p0 :: rest := hprops.symm.trans heq
    injection h2 with ha hb
    subst ha
    subst hb
    have hch : buildChanged o [p] = true := by
      unfold buildChanged
      simp only [pass1, List.map_cons, List.map_nil, List.any_cons, List.any_nil]
      rw [hp]
      simp [hne]
    rw [if_pos hch]
    have hsorted : buildSorted o [p] = [p'] := by
      unfold buildSorted sortPasses pass1
      rw [List.map_cons, List.map_nil, hp]
      have h1 : (if o.orderDirectives = true
          then orderDirectivesPass o.directiveOrder [p'] else [p']) = [p'] := by
        split
        · exact orderDirectivesPass_singleton _ p'
        · rfl
      rw [h1]
      split
      · exact orderAttributesPass_singleton p'
      · rfl
    rw [hsorted]
    simp only [List.getLast_singleton, List.map_cons, List.map_nil]
    rw [intercalate_single]

/-! Class-rebuild computation on an all-whitespace value. -/

theorem classProcessedTokens_empty (o : ResolvedVuenifyOptions) {v : Str}
    (htok : splitWs v = []) : classProcessedTokens o v = [] := by
  unfold classProcessedTokens
  rw [htok]
  split <;> split <;> rfl

theorem classRebuiltValue_undefined (o : ResolvedVuenifyOptions) {src v : Str}
    (htok : splitWs v = []) (hlayout : o.classLayout = ClassLayout.preserve)
    (hnl : src.contains '\n' = true) :
    classRebuiltValue o src v = str "undefined" := by
  unfold classRebuiltValue
  rw [classProcessedTokens_empty o htok]
  rw [if_pos ⟨hlayout, hnl⟩]
  simp

theorem classQuote_ne_newline (src : Str) : classQuote src ≠ '\n' := by
  unfold classQuote
  split <;> decide

/-- C10 (reachable `undefined` rebuild): a class attribute whose value text
is non-empty but all whitespace — zero tokens after splitting — with a class
flag enabled, `classLayout = preserve` and a newline in the original
attribute text, is rewritten by the rebuilder to `class=` followed by the
quote, the literal text `undefined`, and the quote: the preserve branch
indexes position 0 of the empty token list, and the resulting replacement is
emitted at the public entry point. -/
theorem claim_C10 (e : ElementNode) (off : Nat) (o : ResolvedVuenifyOptions)
    (a : AttributeNode) (v : Str)
    (hprops : e.props = [PropNode.attr a])
    (hname : a.name = str "class")
    (hval : a.value = some v)
    (hvne : v ≠ [])
    (htok : splitWs v = [])
    (hflag : o.sortClasses = true ∨ o.removeDuplicates = true)
    (hlayout : o.classLayout = ClassLayout.preserve)
    (hnl : a.loc.source.contains '\n' = true) :
    buildUnifiedAttributeReplacement e off o =
      some { start := off + a.loc.startOffset,
             endPos := off + a.loc.endOffset,
             value := str "class=" ++
               (classQuote a.loc.source :: (str "undefined" ++ [classQuote a.loc.source])) } := by
  have hrb : rebuildClassSource o a = str "class=" ++
      (classQuote a.loc.source :: (str "undefined" ++ [classQuote a.loc.source])) := by
    unfold rebuildClassSource
    rw [hval]
    simp only []
    rw [classRebuiltValue_undefined o htok hlayout hnl]
  have hnonl : (str "class=" ++
      (classQuote a.loc.source :: (str "undefined" ++ [classQuote a.loc.source]))).contains '\n' = false := by
    unfold classQuote
    split <;> decide
  have hnes : rebuildClassSource o a ≠ a.loc.source := by
    rw [hrb]
    intro hcontra
    rw [hcontra] at hnonl
    rw [hnl] at hnonl
    cases hnonl
  have htp : transformProp o (PropNode.attr a) =
      PropNode.attr (cloneAttributeWithSource a (rebuildClassSource o a)) := by
    simp only [transformProp]
    rw [if_pos ⟨hname, by rw [hval]; rfl, by
      rcases hflag with h | h
      · exact Or.inl h
      · exact Or.inr h⟩]
    rw [if_pos hnes]
  have hclne : PropNode.attr (cloneAttributeWithSource a (rebuildClassSource o a)) ≠
      PropNode.attr a := by
    intro hcontra
    have := congrArg (fun p => (propLoc p).source) hcontra
    simp only [propLoc, cloneAttributeWithSource] at this
    exact hnes this
  have := build_singleton e off o (PropNode.attr a)
    (PropNode.attr (cloneAttributeWithSource a (rebuildClassSource o a))) hprops htp hclne
  rw [this]
  simp only [propLoc, cloneAttributeWithSource]
  rw [hrb]

/-- Witness for C10 at a concrete whitespace-only class value. -/
theorem claim_C10_witness :
    buildUnifiedAttributeReplacement c10Elem 0 c10Opts =
      some { start := 0 + c10Attr.loc.startOffset,
             endPos := 0 + c10Attr.loc.endOffset,
             value := str "class=" ++
               (classQuote c10Attr.loc.source :: (str "undefined" ++ [classQuote c10Attr.loc.source])) } :=
  claim_C10 c10Elem 0 c10Opts c10Attr (str " \n ") (by decide) (by decide) (by decide)
    (by decide) (by decide) (Or.inl (by decide)) (by decide) (by decide)

/-- Refutation of C5 as stated: for the double-quoted class value `a's b`
(enclosing quote `"`, apostrophe inside the value), the rebuilder emits a
single-quoted attribute text — the quote enclosing the value in the original
attribute text is not preserved. -/
theorem claim_C5_counterexample :
    buildUnifiedAttributeReplacement c5Elem 0 c5Opts =
      some { start := 5, endPos := 18, value := c5Rebuilt } ∧
    c5Src[6]? = some '"' ∧ c5Src.getLast? = some '"' ∧
    c5Rebuilt[6]? = some '\'' ∧ c5Rebuilt.getLast? = some '\'' := by
  refine ⟨?_, by decide, by decide, by decide, by decide⟩
  decide

/-- C5 amended: the rebuilt class attribute text is quoted with `'` exactly
when the original attribute text contains an apostrophe anywhere, and with
`"` otherwise.  This coincides with the original enclosing quote whenever
the only quote characters in the attribute text are the enclosing ones. -/
theorem claim_C5 (o : ResolvedVuenifyOptions) (a : AttributeNode) (v : Str)
    (hval : a.value = some v) :
    ∃ body, rebuildClassSource o a =
      str "class=" ++
        ((if a.loc.source.contains '\'' = true then '\'' else '"') ::
          (body ++ [if a.loc.source.contains '\'' = true then '\'' else '"'])) := by
  refine ⟨classRebuiltValue o a.loc.source v, ?_⟩
  unfold rebuildClassSource
  rw [hval]
  simp only [classQuote]

/-- Witness for the amended C5: a single-quoted class value keeps `'`. -/
theorem claim_C5_witness :
    ∃ body, rebuildClassSource c5Opts c5wAttr =
      str "class=" ++
        ((if c5wAttr.loc.source.contains '\'' = true then '\'' else '"') ::
          (body ++ [if c5wAttr.loc.source.contains '\'' = true then '\'' else '"'])) :=
  claim_C5 c5Opts c5wAttr (str "b a") (by decide)

/-- Refutation of C6 as stated: under `addValue`, a bind directive with the
dynamic argument `[key]` and no expression is rewritten to `:[key]="key"` —
the synthesized double-quoted value part equals the argument with its
dynamic brackets stripped, not the argument text `[key]` itself. -/
theorem claim_C6_counterexample :
    (getDirectiveTransform c6Dir 0 DirectiveStyle.short SameNameMode.addValue).map
      Replacement.value = some (str ":[key]=\"key\"") ∧
    str ":[key]=\"key\"" ≠ str ":[key]=\"[key]\"" := by
  constructor
  · decide
  · decide

/-- C6 amended: the same-name policy applies only to a bind-kind directive
with a non-empty argument; `ignore` never modifies the value part;
`removeValue` strips the value part exactly when an expression is present
and its trimmed text equals the argument with dynamic brackets stripped and
trimmed; `addValue` synthesizes, when no expression is present, a
double-quoted value part equal to the argument with dynamic brackets
stripped and trimmed. -/
theorem claim_C6 (mode : SameNameMode) (name arg : Str) (exp : Option Str) (ovp : Str) :
    (directiveValuePart SameNameMode.ignore name arg exp ovp = ovp) ∧
    (name ≠ str "bind" ∨ arg = [] → directiveValuePart mode name arg exp ovp = ovp) ∧
    (name = str "bind" → arg ≠ [] →
      directiveValuePart SameNameMode.removeValue name arg exp ovp =
        (match exp with
         | some e => if trimStr e = normalizedArgOf arg then [] else ovp
         | none => ovp)) ∧
    (name = str "bind" → arg ≠ [] →
      directiveValuePart SameNameMode.addValue name arg exp ovp =
        (match exp with
         | some _ => ovp
         | none => '=' :: '"' :: (normalizedArgOf arg ++ ['"']))) := by
  refine ⟨?_, ?_, ?_, ?_⟩
  · unfold directiveValuePart
    rw [if_neg]
    rintro ⟨-, -, hmode⟩
    exact hmode rfl
  · intro h
    unfold directiveValuePart
    rw [if_neg]
    rintro ⟨hn, ha, -⟩
    rcases h with h | h
    · exact h hn
    · exact ha h
  · intro hn ha
    unfold directiveValuePart
    rw [if_pos ⟨hn, ha, by decide⟩]
    cases exp with
    | none =>
      rw [if_neg (by rintro ⟨-, h⟩; cases h)]
      rw [if_neg (by rintro ⟨h, -⟩; cases h)]
    | some e =>
      rw [if_pos ⟨rfl, rfl⟩]
      simp only [Option.getD_some]
  · intro hn ha
    unfold directiveValuePart
    rw [if_pos ⟨hn, ha, by decide⟩]
    cases exp with
    | none =>
      rw [if_neg (by rintro ⟨-, h⟩; cases h)]
      rw [if_pos ⟨rfl, rfl⟩]
    | some e =>
      rw [if_neg (by rintro ⟨h, -⟩; cases h)]
      rw [if_neg (by rintro ⟨-, h⟩; cases h)]

/-- Witness for the amended C6: `removeValue` strips `:src="src"` and
`addValue` synthesizes the stripped dynamic argument. -/
theorem claim_C6_witness :
    directiveValuePart SameNameMode.removeValue (str "bind") (str "src")
      (some (str "src")) (str "=\"src\"") = [] ∧
    directiveValuePart SameNameMode.addValue (str "bind") (str "[key]") none [] =
      '=' :: '"' :: (normalizedArgOf (str "[key]") ++ ['"']) := by
  constructor
  · have h := (claim_C6 SameNameMode.ignore (str "bind") (str "src")
      (some (str "src")) (str "=\"src\"")).2.2.1 rfl (by decide)
    rw [h]
    decide
  · have h := (claim_C6 SameNameMode.ignore (str "bind") (str "[key]") none []).2.2.2 rfl (by decide)
    rw [h]

/-! Characterization of first-occurrence deduplication. -/

theorem dedupFirstAux_congr_seen : ∀ {seen1 seen2 : List Str} (l : List Str),
    (∀ z, z ∈ seen1 ↔ z ∈ seen2) → dedupFirstAux seen1 l = dedupFirstAux seen2 l
  | _, _, [], _ => rfl
  | seen1, seen2, x :: xs, h => by
    simp only [dedupFirstAux]
    by_cases hx : x ∈ seen1
    · rw [if_pos hx, if_pos ((h x).mp hx)]
      exact dedupFirstAux_congr_seen xs h
    · rw [if_neg hx, if_neg (fun hc => hx ((h x).mpr hc))]
      congr 1
      refine dedupFirstAux_congr_seen xs ?_
      intro z
      simp only [List.mem_cons]
      constructor
      · rintro (rfl | hz)
        · exact Or.inl rfl
        · exact Or.inr ((h z).mp hz)
      · rintro (rfl | hz)
        · exact Or.inl rfl
        · exact Or.inr ((h z).mpr hz)

theorem dedupFirstAux_seen_filter : ∀ (seen : List Str) (x : Str) (l : List Str),
    dedupFirstAux (x :: seen) l = dedupFirstAux seen (l.filter (fun y => decide (y ≠ x)))
  | seen, x, [] => rfl
  | seen, x, y :: ys => by
    by_cases hyx : y = x
    · subst hyx
      rw [List.filter_cons_of_neg (by simp)]
      simp only [dedupFirstAux]
      rw [if_pos (List.mem_cons_self y seen)]
      exact dedupFirstAux_seen_filter seen y ys
    · rw [List.filter_cons_of_pos (by simp [hyx])]
      simp only [dedupFirstAux]
      by_cases hy : y ∈ seen
      · rw [if_pos (List.mem_cons_of_mem x hy), if_pos hy]
        exact dedupFirstAux_seen_filter seen x ys
      · rw [if_neg (by simp [hy, hyx]), if_neg hy]
        congr 1
        rw [show dedupFirstAux (y :: x :: seen) ys = dedupFirstAux (x :: y :: seen) ys from
          dedupFirstAux_congr_seen ys (by intro z; simp only [List.mem_cons]; tauto)]
        exact dedupFirstAux_seen_filter (y :: seen) x ys

theorem dedupFirst_cons (x : Str) (xs : List Str) :
    dedupFirst (x :: xs) = x :: dedupFirst (xs.filter (fun y => decide (y ≠ x))) := by
  unfold dedupFirst
  simp only [dedupFirstAux]
  rw [if_neg (List.not_mem_nil x)]
  congr 1
  exact dedupFirstAux_seen_filter [] x xs

/-- C8 (dedup/sort independence): with `sortClasses = false` and
`removeDuplicates = true` the processed token list is the first-occurrence
deduplication of the split tokens — it keeps exactly the first occurrence of
each token (exact equality), without duplicates, as a subsequence of the
original token order, with the head-first recursion pinning first-occurrence
relative order; with both flags false, a class attribute prop is left
completely untouched, so its text is byte-identical. -/
theorem claim_C8 (o : ResolvedVuenifyOptions) (v : Str) (a : AttributeNode) :
    (o.sortClasses = false → o.removeDuplicates = true →
      classProcessedTokens o v = dedupFirst (splitWs v) ∧
      (classProcessedTokens o v).Nodup ∧
      (classProcessedTokens o v).Sublist (splitWs v) ∧
      (∀ x, x ∈ classProcessedTokens o v ↔ x ∈ splitWs v) ∧
      (∀ x xs, dedupFirst (x :: xs) = x :: dedupFirst (xs.filter (fun y => decide (y ≠ x))))) ∧
    (o.sortClasses = false → o.removeDuplicates = false →
      transformProp o (PropNode.attr a) = PropNode.attr a) := by
  constructor
  · intro hs hd
    have hpt : classProcessedTokens o v = dedupFirst (splitWs v) := by
      unfold classProcessedTokens
      rw [hs, hd]
      rfl
    refine ⟨hpt, ?_, ?_, ?_, dedupFirst_cons⟩
    · rw [hpt]
      exact nodup_dedupFirstAux [] (splitWs v)
    · rw [hpt]
      exact dedupFirstAux_sublist [] (splitWs v)
    · intro x
      rw [hpt]
      unfold dedupFirst
      rw [mem_dedupFirstAux]
      simp
  · intro hs hd
    simp only [transformProp]
    rw [if_neg]
    rintro ⟨-, -, h | h⟩
    · rw [hs] at h
      cases h
    · rw [hd] at h
      cases h

/-- Witness for C8 on the repository's test value `b a b c`. -/
theorem claim_C8_witness :
    classProcessedTokens c8Opts (str "b a b c") = dedupFirst (splitWs (str "b a b c")) ∧
    transformProp c8OptsOff (PropNode.attr c8Attr) = PropNode.attr c8Attr := by
  constructor
  · exact ((claim_C8 c8Opts (str "b a b c") c8Attr).1 rfl rfl).1
  · exact (claim_C8 c8OptsOff (str "b a b c") c8Attr).2 rfl rfl

/-! Weight-map lemmas. -/

theorem directiveWeight_lt_of_mem {order : List Str} {n : Str} (h : n ∈ order) :
    directiveWeight order n < order.length := by
  unfold directiveWeight
  have hne : order.enum.filter (fun p => decide (p.2 = n)) ≠ [] := by
    rw [ne_eq, List.filter_eq_nil_iff]
    push_neg
    obtain ⟨i, hi, hget⟩ := List.mem_iff_getElem.mp h
    exact ⟨(i, n), by
      rw [List.mk_mem_enum_iff_getElem?, List.getElem?_eq_getElem hi, hget], by simp⟩
  rw [List.getLast?_eq_getLast _ hne, Option.map_some']
  have hmem : (order.enum.filter (fun p => decide (p.2 = n))).getLast hne ∈ order.enum :=
    (List.mem_filter.mp (List.getLast_mem hne)).1
  set L := (order.enum.filter (fun p => decide (p.2 = n))).getLast hne with hL
  have h2 : (L.1, L.2) ∈ List.enumFrom 0 order := by
    simpa using hmem
  have h3 := (List.mem_enumFrom h2).2.1
  show L.1 < order.length
  omega

theorem directiveWeight_eq_of_not_mem {order : List Str} {n : Str} (h : n ∉ order) :
    directiveWeight order n = 1000 := by
  unfold directiveWeight
  have hnil : order.enum.filter (fun p => decide (p.2 = n)) = [] := by
    rw [List.filter_eq_nil_iff]
    intro p hp
    simp only [decide_eq_true_eq]
    intro hc
    exact h (hc ▸ List.snd_mem_of_mem_enum hp)
  rw [hnil]
  rfl

/-! Directive-ordering pass: directive subsequence. -/

theorem stableSort_dir_all (order : List Str) (l : List PropNode) :
    ∀ d ∈ stableSort (l.filter isDirectiveNode) (dirPropCompare order),
      isDirectiveNode d = true := by
  intro d hd
  exact (List.mem_filter.mp
    ((stableSort_perm (l.filter isDirectiveNode) (dirPropCompare order)).mem_iff.mp hd)).2

theorem orderDirectivesPass_filter (order : List Str) (l : List PropNode) :
    (orderDirectivesPass order l).filter isDirectiveNode =
      stableSort (l.filter isDirectiveNode) (dirPropCompare order) := by
  unfold orderDirectivesPass
  exact filter_spliceBy isDirectiveNode l _ (stableSort_dir_all order l)
    (stableSort_perm _ _).length_eq

/-- C7 (directive splice-back): with directive ordering enabled, the pass
keeps every non-directive prop at its exact original index, preserves which
positions hold directives, leaves the multiset of directive props unchanged,
places the stable-sorted directive subsequence exactly at the directive
positions, and directives comparing equal under `(rank, ASCII name)` — which
forces equal names, hence equal ranks — retain their original relative
order: for every name, the subsequence of directives with that name is
unchanged. -/
theorem claim_C7 (order : List Str) (l : List PropNode) :
    (∀ (i : Nat) (p : PropNode), l[i]? = some p → isDirectiveNode p = false →
      (orderDirectivesPass order l)[i]? = some p) ∧
    (orderDirectivesPass order l).map isDirectiveNode = l.map isDirectiveNode ∧
    ((orderDirectivesPass order l).filter isDirectiveNode).Perm
      (l.filter isDirectiveNode) ∧
    (orderDirectivesPass order l).filter isDirectiveNode =
      stableSort (l.filter isDirectiveNode) (dirPropCompare order) ∧
    (∀ n, (orderDirectivesPass order l).filter
        (fun p => isDirectiveNode p && decide (propName p = n)) =
      l.filter (fun p => isDirectiveNode p && decide (propName p = n))) := by
  have hperm := stableSort_perm (l.filter isDirectiveNode) (dirPropCompare order)
  have hall := stableSort_dir_all order l
  have hlen := hperm.length_eq
  have hfil := orderDirectivesPass_filter order l
  refine ⟨?_, ?_, ?_, hfil, ?_⟩
  · intro i p hp hnd
    unfold orderDirectivesPass
    exact getElem?_spliceBy_not isDirectiveNode l _ i p hp hnd
  · unfold orderDirectivesPass
    exact map_isK_spliceBy isDirectiveNode l _ hall hlen
  · rw [hfil]
    exact hperm
  · intro n
    have hsplit : ∀ m : List PropNode,
        m.filter (fun p => isDirectiveNode p && decide (propName p = n)) =
          (m.filter isDirectiveNode).filter (fun p => decide (propName p = n)) := by
      intro m
      rw [List.filter_filter]
      refine List.filter_congr ?_
      intro x _
      rw [Bool.and_comm]
    rw [hsplit, hsplit, hfil]
    refine stableSort_filter_of_ties _ (dirPropCompare_laws order) ?_
    intro x y hx hy hxn hyn
    have hxy : propName x = propName y := by
      have h1 := of_decide_eq_true hxn
      have h2 := of_decide_eq_true hyn
      rw [h1, h2]
    unfold dirPropCompare
    rw [hxy]
    simp [asciiCompare_eq_zero_iff]

/-- Witness for C7 at the repository's directive-ordering example. -/
theorem claim_C7_witness :
    (orderDirectivesPass wOptsOrder.directiveOrder wElemDirs.props).map isDirectiveNode =
      wElemDirs.props.map isDirectiveNode :=
  (claim_C7 wOptsOrder.directiveOrder wElemDirs.props).2.1

set_option maxRecDepth 40000 in
/-- Refutation of C4 as stated: with a 1001-entry `directivePriority`, the
configured name `zz` gets the rank 1000, which equals the fallback rank of
absent names, so the absent-named directive `aa` ties with it and sorts
before it alphabetically instead of after it. -/
theorem claim_C4_counterexample :
    directiveWeight c4Order (str "zz") = 1000 ∧
    directiveWeight c4Order (str "aa") = 1000 ∧
    str "aa" ∉ c4Order ∧ str "zz" ∈ c4Order ∧
    (orderDirectivesPass c4Order c4Props).map propName = [str "aa", str "zz"] := by
  refine ⟨by decide, by decide, by decide, by decide, by decide⟩

/-- C4 amended: provided `directivePriority` has at most 1000 entries, the
fallback rank 1000 given to absent names is strictly greater than the rank
of every configured name, so in the ordered output no absent-named directive
precedes a present-named one; and among absent-named directives the order is
ASCII-alphabetical by name (ties only between equal names). -/
theorem claim_C4 (order : List Str) (l : List PropNode) (h1000 : order.length ≤ 1000) :
    (∀ n ∈ order, directiveWeight order n < 1000) ∧
    (∀ n, n ∉ order → directiveWeight order n = 1000) ∧
    ((orderDirectivesPass order l).filter isDirectiveNode).Pairwise
      (fun a b => ¬(propName a ∉ order ∧ propName b ∈ order)) ∧
    (((orderDirectivesPass order l).filter isDirectiveNode).filter
        (fun p => decide (propName p ∉ order))).Pairwise
      (fun a b => asciiCompare (propName a) (propName b) ≤ 0) := by
  have hlt : ∀ n ∈ order, directiveWeight order n < 1000 :=
    fun n hn => Nat.lt_of_lt_of_le (directiveWeight_lt_of_mem hn) h1000
  have hsorted := pairwise_stableSort (dirPropCompare_laws order) (l.filter isDirectiveNode)
  rw [← orderDirectivesPass_filter order l] at hsorted
  refine ⟨hlt, fun n hn => directiveWeight_eq_of_not_mem hn, ?_, ?_⟩
  · refine hsorted.imp ?_
    intro a b hab
    rintro ⟨habs, hpres⟩
    unfold dirPropCompare at hab
    rw [directiveWeight_eq_of_not_mem habs] at hab
    have hwb := hlt (propName b) hpres
    rw [if_pos (by omega)] at hab
    omega
  · refine (hsorted.filter _).imp_of_mem ?_
    intro a b ha hb hab
    have habs : propName a ∉ order := of_decide_eq_true (List.mem_filter.mp ha).2
    have hbbs : propName b ∉ order := of_decide_eq_true (List.mem_filter.mp hb).2
    unfold dirPropCompare at hab
    rw [directiveWeight_eq_of_not_mem habs, directiveWeight_eq_of_not_mem hbbs] at hab
    rw [if_neg (by omega)] at hab
    exact hab

/-- Witness for the amended C4 at the repository's default priority list. -/
theorem claim_C4_witness :
    (((orderDirectivesPass wOptsOrder.directiveOrder wElemDirs.props).filter
        isDirectiveNode).filter
      (fun p => decide (propName p ∉ wOptsOrder.directiveOrder))).Pairwise
      (fun a b => asciiCompare (propName a) (propName b) ≤ 0) :=
  (claim_C4 wOptsOrder.directiveOrder wElemDirs.props (by decide)).2.2.2

/-! Text lemmas for the idempotence proof. -/

theorem sliceFromEq_append {a : Str} (b : Str) (h : ∀ c ∈ a, c ≠ '=') :
    sliceFromEq (a ++ b) = sliceFromEq b := by
  induction a with
  | nil => rfl
  | cons c cs ih =>
    simp only [List.cons_append, sliceFromEq]
    rw [if_neg (h c (List.mem_cons_self c cs))]
    exact ih fun x hx => h x (List.mem_cons_of_mem c hx)

theorem sliceFromEq_shape (s : Str) : sliceFromEq s = [] ∨ ∃ t, sliceFromEq s = '=' :: t := by
  induction s with
  | nil => exact Or.inl rfl
  | cons c cs ih =>
    simp only [sliceFromEq]
    by_cases hc : c = '='
    · subst hc
      exact Or.inr ⟨cs, by rw [if_pos rfl]⟩
    · rw [if_neg hc]
      exact ih

theorem sliceFromEq_idem (s : Str) : sliceFromEq (sliceFromEq s) = sliceFromEq s := by
  rcases sliceFromEq_shape s with h | ⟨t, h⟩
  · rw [h]
    rfl
  · rw [h]
    simp [sliceFromEq]

theorem splitWs_cons_ws {c : Char} (rest : Str) (h : jsIsWhitespace c = true) :
    splitWs (c :: rest) = splitWs rest := by
  simp only [splitWs]
  rw [if_pos h]

theorem splitWs_cons_nws {c : Char} (rest : Str) (h : jsIsWhitespace c = false) :
    splitWs (c :: rest) = splitWsCons c rest (splitWs rest) := by
  simp only [splitWs]
  rw [if_neg (by simp [h])]

theorem splitWs_ws_pre : ∀ {w : Str} (s : Str), (∀ c ∈ w, jsIsWhitespace c = true) →
    splitWs (w ++ s) = splitWs s
  | [], _, _ => rfl
  | c :: cs, s, h => by
    rw [List.cons_append, splitWs_cons_ws _ (h c (List.mem_cons_self c cs))]
    exact splitWs_ws_pre s fun x hx => h x (List.mem_cons_of_mem c hx)

theorem splitWs_token : ∀ {t : Str} (s : Str), t ≠ [] → (∀ c ∈ t, jsIsWhitespace c = false) →
    (s = [] ∨ ∃ d rest, s = d :: rest ∧ jsIsWhitespace d = true) →
    splitWs (t ++ s) = t :: splitWs s
  | [], _, hne, _, _ => absurd rfl hne
  | [c], s, _, hws, hs => by
    rw [List.singleton_append, splitWs_cons_nws _ (hws c (List.mem_cons_self c []))]
    rcases hs with rfl | ⟨d, rest, rfl, hd⟩
    · rfl
    · simp only [splitWsCons]
      rw [if_pos hd]
  | c :: c2 :: ts, s, _, hws, hs => by
    have htail : splitWs ((c2 :: ts) ++ s) = (c2 :: ts) :: splitWs s :=
      splitWs_token s (List.cons_ne_nil c2 ts)
        (fun x hx => hws x (List.mem_cons_of_mem c hx)) hs
    rw [show (c :: c2 :: ts) ++ s = c :: ((c2 :: ts) ++ s) from rfl]
    rw [splitWs_cons_nws _ (hws c (List.mem_cons_self c (c2 :: ts)))]
    rw [show (c2 :: ts) ++ s = c2 :: (ts ++ s) from rfl] at htail ⊢
    simp only [splitWsCons]
    rw [if_neg (by simp [hws c2 (List.mem_cons_of_mem c (List.mem_cons_self c2 ts))])]
    rw [htail]

theorem intercalate_cons (sep t : Str) (ts : List Str) :
    List.intercalate sep (t :: ts) = t ++ ((ts.map fun x => sep ++ x).flatten) := by
  induction ts generalizing t with
  | nil => simp [List.intercalate]
  | cons u us ih =>
    have h1 : (List.intersperse sep (u :: us)).flatten =
        u ++ ((us.map fun x => sep ++ x).flatten) := by
      simpa [List.intercalate] using ih u
    simp only [List.intercalate, List.map_cons, List.flatten_cons]
    rw [show List.intersperse sep (t :: u :: us) =
      t :: sep :: List.intersperse sep (u :: us) from rfl]
    simp only [List.flatten_cons]
    rw [h1]
    simp [List.append_assoc]

theorem splitWs_intercalate {sep : Str} (hsep : sep ≠ [])
    (hsw : ∀ c ∈ sep, jsIsWhitespace c = true) :
    ∀ (toks : List Str), (∀ t ∈ toks, t ≠ [] ∧ ∀ c ∈ t, jsIsWhitespace c = false) →
      splitWs (List.intercalate sep toks) = toks
  | [], _ => rfl
  | [t], h => by
    rw [intercalate_cons]
    simp only [List.map_nil, List.flatten_nil, List.append_nil]
    have ht := h t (List.mem_cons_self t [])
    have := splitWs_token [] ht.1 ht.2 (Or.inl rfl)
    simpa using this
  | t :: u :: us, h => by
    rw [intercalate_cons]
    simp only [List.map_cons, List.flatten_cons]
    have ht := h t (List.mem_cons_self t (u :: us))
    obtain ⟨d, dtl, rfl⟩ : ∃ d dtl, sep = d :: dtl := by
      cases sep with
      | nil => exact absurd rfl hsep
      | cons d dtl => exact ⟨d, dtl, rfl⟩
    rw [show (d :: dtl) ++ u ++ ((us.map fun x => (d :: dtl) ++ x).flatten) =
      d :: (dtl ++ (u ++ ((us.map fun x => (d :: dtl) ++ x).flatten))) from by
        simp [List.append_assoc]]
    rw [splitWs_token _ ht.1 ht.2
      (Or.inr ⟨d, _, rfl, hsw d (List.mem_cons_self d dtl)⟩)]
    congr 1
    rw [show d :: (dtl ++ (u ++ ((us.map fun x => (d :: dtl) ++ x).flatten))) =
      (d :: dtl) ++ (u ++ ((us.map fun x => (d :: dtl) ++ x).flatten)) from rfl]
    rw [splitWs_ws_pre _ hsw]
    have := splitWs_intercalate hsep hsw (u :: us)
      (fun x hx => h x (List.mem_cons_of_mem t hx))
    rw [intercalate_cons] at this
    exact this

theorem splitWs_tokens : ∀ (s : Str) (t : Str), t ∈ splitWs s →
    t ≠ [] ∧ ∀ c ∈ t, jsIsWhitespace c = false
  | [], t, ht => by simp [splitWs] at ht
  | c :: rest, t, ht => by
    by_cases hc : jsIsWhitespace c = true
    · rw [splitWs_cons_ws rest hc] at ht
      exact splitWs_tokens rest t ht
    · rw [splitWs_cons_nws rest (by simpa using hc)] at ht
      cases rest with
      | nil =>
        simp only [splitWsCons, List.mem_singleton] at ht
        subst ht
        refine ⟨List.cons_ne_nil c [], ?_⟩
        intro x hx
        rcases List.mem_cons.mp hx with rfl | hx
        · simpa using hc
        · simp at hx
      | cons d rtl =>
        simp only [splitWsCons] at ht
        by_cases hd : jsIsWhitespace d = true
        · rw [if_pos hd] at ht
          rcases List.mem_cons.mp ht with rfl | ht
          · refine ⟨List.cons_ne_nil c [], ?_⟩
            intro x hx
            rcases List.mem_cons.mp hx with rfl | hx
            · simpa using hc
            · simp at hx
          · exact splitWs_tokens (d :: rtl) t ht
        · rw [if_neg hd] at ht
          cases hsp : splitWs (d :: rtl) with
          | nil =>
            rw [hsp] at ht
            simp only [List.mem_singleton] at ht
            subst ht
            refine ⟨List.cons_ne_nil c [], ?_⟩
            intro x hx
            rcases List.mem_cons.mp hx with rfl | hx
            · simpa using hc
            · simp at hx
          | cons t0 ts0 =>
            rw [hsp] at ht
            rcases List.mem_cons.mp ht with rfl | ht
            · have h0 := splitWs_tokens (d :: rtl) t0 (hsp ▸ List.mem_cons_self t0 ts0)
              refine ⟨List.cons_ne_nil c t0, ?_⟩
              intro x hx
              rcases List.mem_cons.mp hx with rfl | hx
              · simpa using hc
              · exact h0.2 x hx
            · exact splitWs_tokens (d :: rtl) t (hsp ▸ List.mem_cons_of_mem t0 ht)

theorem splitWs_chars : ∀ (s : Str) (t : Str), t ∈ splitWs s → ∀ c ∈ t, c ∈ s
  | [], t, ht => by simp [splitWs] at ht
  | c :: rest, t, ht => by
    by_cases hc : jsIsWhitespace c = true
    · rw [splitWs_cons_ws rest hc] at ht
      intro x hx
      exact List.mem_cons_of_mem c (splitWs_chars rest t ht x hx)
    · rw [splitWs_cons_nws rest (by simpa using hc)] at ht
      cases rest with
      | nil =>
        simp only [splitWsCons, List.mem_singleton] at ht
        subst ht
        intro x hx
        rcases List.mem_cons.mp hx with rfl | hx
        · exact List.mem_cons_self x []
        · simp at hx
      | cons d rtl =>
        simp only [splitWsCons] at ht
        by_cases hd : jsIsWhitespace d = true
        · rw [if_pos hd] at ht
          rcases List.mem_cons.mp ht with rfl | ht
          · intro x hx
            rcases List.mem_cons.mp hx with rfl | hx
            · exact List.mem_cons_self x (d :: rtl)
            · simp at hx
          · intro x hx
            exact List.mem_cons_of_mem c (splitWs_chars (d :: rtl) t ht x hx)
        · rw [if_neg hd] at ht
          cases hsp : splitWs (d :: rtl) with
          | nil =>
            rw [hsp] at ht
            simp only [List.mem_singleton] at ht
            subst ht
            intro x hx
            rcases List.mem_cons.mp hx with rfl | hx
            · exact List.mem_cons_self x (d :: rtl)
            · simp at hx
          | cons t0 ts0 =>
            rw [hsp] at ht
            rcases List.mem_cons.mp ht with rfl | ht
            · intro x hx
              rcases List.mem_cons.mp hx with rfl | hx
              · exact List.mem_cons_self x (d :: rtl)
              · exact List.mem_cons_of_mem c
                  (splitWs_chars (d :: rtl) t0 (hsp ▸ List.mem_cons_self t0 ts0) x hx)
            · intro x hx
              exact List.mem_cons_of_mem c
                (splitWs_chars (d :: rtl) t (hsp ▸ List.mem_cons_of_mem t0 ht) x hx)

/-! Indentation lemmas. -/

theorem indentOf_cons_ne {c : Char} (rest : Str) (h : c ≠ '\n') :
    indentOf (c :: rest) = indentOf rest := by
  simp only [indentOf]
  rw [if_neg (by simp [h])]

theorem indentOf_nl_ws {d : Char} (tl : Str) (hd : jsIsWhitespace d = true) :
    indentOf ('\n' :: d :: tl) = some ((d :: tl).takeWhile jsIsWhitespace) := by
  simp only [indentOf]
  rw [if_pos (by simp [hd])]

theorem indentOf_nl_nws {d : Char} (tl : Str) (hd : jsIsWhitespace d = false) :
    indentOf ('\n' :: d :: tl) = indentOf (d :: tl) := by
  simp only [indentOf]
  rw [if_neg (by simp [hd])]

theorem indentOf_pre : ∀ {pre : Str} (s : Str), (∀ c ∈ pre, c ≠ '\n') →
    indentOf (pre ++ s) = indentOf s
  | [], _, _ => rfl
  | c :: cs, s, h => by
    rw [List.cons_append, indentOf_cons_ne _ (h c (List.mem_cons_self c cs))]
    exact indentOf_pre s fun x hx => h x (List.mem_cons_of_mem c hx)

theorem indentOf_sep {indent : Str} (hne : indent ≠ [])
    (hws : ∀ c ∈ indent, jsIsWhitespace c = true)
    {c1 : Char} (hc1 : jsIsWhitespace c1 = false) (rest2 : Str) :
    indentOf ('\n' :: (indent ++ (c1 :: rest2))) = some indent := by
  obtain ⟨d, dtl, rfl⟩ : ∃ d dtl, indent = d :: dtl := by
    cases indent with
    | nil => exact absurd rfl hne
    | cons d dtl => exact ⟨d, dtl, rfl⟩
  rw [show (d :: dtl) ++ (c1 :: rest2) = d :: (dtl ++ c1 :: rest2) from rfl]
  rw [indentOf_nl_ws _ (hws d (List.mem_cons_self d dtl))]
  congr 1
  rw [show d :: (dtl ++ c1 :: rest2) = (d :: dtl) ++ (c1 :: rest2) from rfl]
  rw [List.takeWhile_append_of_pos hws]
  rw [List.takeWhile_cons_of_neg (by simp [hc1])]
  simp

theorem indentOf_single (c : Char) : indentOf [c] = none := by
  simp [indentOf]

theorem indentOf_spec : ∀ {s ind : Str}, indentOf s = some ind →
    ind ≠ [] ∧ ∀ c ∈ ind, jsIsWhitespace c = true
  | [], ind, h => by simp [indentOf] at h
  | [c], ind, h => by
    rw [indentOf_single] at h
    cases h
  | c :: d :: tl, ind, h => by
    by_cases hc : c = '\n'
    · subst hc
      by_cases hd : jsIsWhitespace d = true
      · rw [indentOf_nl_ws _ hd] at h
        obtain rfl := Option.some.inj h
        constructor
        · rw [List.takeWhile_cons_of_pos hd]
          exact List.cons_ne_nil d _
        · intro x hx
          exact List.mem_takeWhile_imp hx
      · rw [indentOf_nl_nws _ (by simpa using hd)] at h
        exact indentOf_spec h
    · rw [indentOf_cons_ne _ hc] at h
      exact indentOf_spec h

/-! Sorted-class-token lemmas. -/

theorem strLe_total (a b : Str) :
    decide (asciiCompare a b ≤ 0) = true ∨ decide (asciiCompare b a ≤ 0) = true := by
  by_cases hab : a = b
  · subst hab
    left
    simp [asciiCompare]
  · rcases ltStr_total a b hab with h | h
    · left
      simp only [decide_eq_true_eq]
      rw [show asciiCompare a b = -1 from by simp [asciiCompare, hab, h]]
      omega
    · right
      simp only [decide_eq_true_eq]
      rw [show asciiCompare b a = -1 from by simp [asciiCompare, Ne.symm hab, h]]
      omega

theorem asciiCompare_le_trans {a b c : Str} (h1 : asciiCompare a b ≤ 0)
    (h2 : asciiCompare b c ≤ 0) : asciiCompare a c ≤ 0 := by
  have laws := asciiCompare_laws
  rcases lt_or_eq_of_le h1 with h1 | h1 <;> rcases lt_or_eq_of_le h2 with h2 | h2
  · exact le_of_lt (laws.trans_lt _ _ _ h1 h2)
  · exact le_of_lt (laws.lt_zero _ _ _ h1 h2)
  · exact le_of_lt (laws.zero_lt _ _ _ h1 h2)
  · exact le_of_eq (laws.trans0 _ _ _ h1 h2)

theorem strLe_trans (a b c : Str) (h1 : decide (asciiCompare a b ≤ 0) = true)
    (h2 : decide (asciiCompare b c ≤ 0) = true) : decide (asciiCompare a c ≤ 0) = true := by
  simp only [decide_eq_true_eq] at h1 h2 ⊢
  exact asciiCompare_le_trans h1 h2

theorem jsSortedStrings_perm (l : List Str) : (jsSortedStrings l).Perm l :=
  sortByLe_perm _ l

theorem jsSortedStrings_pairwise (l : List Str) :
    (jsSortedStrings l).Pairwise (fun a b => asciiCompare a b ≤ 0) := by
  refine (pairwise_sortByLe strLe_total strLe_trans l).imp ?_
  intro a b h
  simpa using h

theorem jsSortedStrings_of_sorted {l : List Str}
    (h : l.Pairwise (fun a b => asciiCompare a b ≤ 0)) : jsSortedStrings l = l := by
  refine sortByLe_of_sorted (h.imp ?_)
  intro a b hab
  simpa using hab

/-! Token-pipeline lemmas. -/

theorem cpt_mem_splitWs {o : ResolvedVuenifyOptions} {v : Str} {t : Str}
    (ht : t ∈ classProcessedTokens o v) : t ∈ splitWs v := by
  simp only [classProcessedTokens] at ht
  have h1 : t ∈ (if o.removeDuplicates = true then dedupFirst (splitWs v) else splitWs v) := by
    split at ht
    · exact (jsSortedStrings_perm _).mem_iff.mp ht
    · exact ht
  split at h1
  · exact (mem_dedupFirstAux.mp h1).1
  · exact h1

theorem cpt_tokens {o : ResolvedVuenifyOptions} {v : Str} {t : Str}
    (ht : t ∈ classProcessedTokens o v) :
    t ≠ [] ∧ ∀ c ∈ t, jsIsWhitespace c = false :=
  splitWs_tokens v t (cpt_mem_splitWs ht)

theorem cpt_fix {o : ResolvedVuenifyOptions} {v w : Str}
    (hw : splitWs w = classProcessedTokens o v) :
    classProcessedTokens o w = classProcessedTokens o v := by
  have hnodup : o.removeDuplicates = true → (classProcessedTokens o v).Nodup := by
    intro hd
    simp only [classProcessedTokens]
    rw [hd]
    simp only [if_true]
    split
    · exact (jsSortedStrings_perm _).nodup_iff.mpr (nodup_dedupFirstAux [] _)
    · exact nodup_dedupFirstAux [] _
  have hsorted : o.sortClasses = true →
      (classProcessedTokens o v).Pairwise (fun a b => asciiCompare a b ≤ 0) := by
    intro hs
    simp only [classProcessedTokens]
    rw [hs]
    simp only [if_true]
    exact jsSortedStrings_pairwise _
  conv_lhs => simp only [classProcessedTokens]
  rw [hw]
  have hdstep : (if o.removeDuplicates = true
      then dedupFirst (classProcessedTokens o v) else classProcessedTokens o v) =
      classProcessedTokens o v := by
    split
    · rename_i hd
      exact dedupFirstAux_of_nodup [] _ (hnodup hd) (by simp)
    · rfl
  rw [hdstep]
  split
  · rename_i hs
    exact jsSortedStrings_of_sorted (hsorted hs)
  · rfl

/-! Rebuilt-class-value analysis. -/

theorem contains_iff {s : Str} {c : Char} : s.contains c = true ↔ c ∈ s :=
  List.elem_iff

theorem mem_intercalate {c : Char} {sep : Str} :
    ∀ {toks : List Str}, c ∈ List.intercalate sep toks → c ∈ sep ∨ ∃ t ∈ toks, c ∈ t
  | [], h => by simp [List.intercalate] at h
  | t :: ts, h => by
    rw [intercalate_cons] at h
    rcases List.mem_append.mp h with h | h
    · exact Or.inr ⟨t, List.mem_cons_self t ts, h⟩
    · obtain ⟨l, hl, hcl⟩ := List.mem_flatten.mp h
      obtain ⟨x, hx, rfl⟩ := List.mem_map.mp hl
      rcases List.mem_append.mp hcl with h2 | h2
      · exact Or.inl h2
      · exact Or.inr ⟨x, List.mem_cons_of_mem t hx, h2⟩

theorem classRebuiltValue_inline {o : ResolvedVuenifyOptions} {src v : Str}
    (h : o.classLayout = ClassLayout.inl ∨ src.contains '\n' = false) :
    classRebuiltValue o src v = List.intercalate [' '] (classProcessedTokens o v) := by
  unfold classRebuiltValue
  rw [if_neg]
  rintro ⟨h1, h2⟩
  rcases h with h | h
  · rw [h] at h1
    cases h1
  · rw [h] at h2
    cases h2

theorem classRebuiltValue_preserve {o : ResolvedVuenifyOptions} {src v : Str}
    (h1 : o.classLayout = ClassLayout.preserve) (h2 : src.contains '\n' = true)
    {t0 : Str} {ts : List Str} (hp : classProcessedTokens o v = t0 :: ts) :
    classRebuiltValue o src v =
      List.intercalate ('\n' :: (indentOf src).getD (str "  ")) (t0 :: ts) := by
  unfold classRebuiltValue
  rw [if_pos ⟨h1, h2⟩, hp, intercalate_cons]
  simp only [List.drop_one, List.tail_cons]
  congr 1

theorem classRebuiltValue_empty {o : ResolvedVuenifyOptions} {src v : Str}
    (h1 : o.classLayout = ClassLayout.preserve) (h2 : src.contains '\n' = true)
    (hp : classProcessedTokens o v = []) :
    classRebuiltValue o src v = str "undefined" := by
  unfold classRebuiltValue
  rw [if_pos ⟨h1, h2⟩, hp]
  simp

theorem indent_ws (src : Str) :
    (indentOf src).getD (str "  ") ≠ [] ∧
    ∀ c ∈ (indentOf src).getD (str "  "), jsIsWhitespace c = true := by
  cases hio : indentOf src with
  | none =>
    simp only [Option.getD_none]
    exact ⟨by decide, by decide⟩
  | some ind =>
    simp only [Option.getD_some]
    exact indentOf_spec hio

theorem splitWs_classRebuiltValue {o : ResolvedVuenifyOptions} {src v : Str} :
    splitWs (classRebuiltValue o src v) = classProcessedTokens o v ∨
      (classProcessedTokens o v = [] ∧
        o.classLayout = ClassLayout.preserve ∧ src.contains '\n' = true ∧
        classRebuiltValue o src v = str "undefined") := by
  by_cases hpb : o.classLayout = ClassLayout.preserve ∧ src.contains '\n' = true
  · cases hp : classProcessedTokens o v with
    | nil => exact Or.inr ⟨rfl, hpb.1, hpb.2, classRebuiltValue_empty hpb.1 hpb.2 hp⟩
    | cons t0 ts =>
      left
      rw [classRebuiltValue_preserve hpb.1 hpb.2 hp, ← hp]
      refine splitWs_intercalate (List.cons_ne_nil _ _) ?_ _ ?_
      · intro c hc
        rcases List.mem_cons.mp hc with rfl | hc
        · decide
        · exact (indent_ws src).2 c hc
      · intro t ht
        exact cpt_tokens ht
  · left
    have hor : o.classLayout = ClassLayout.inl ∨ src.contains '\n' = false := by
      by_cases hl : o.classLayout = ClassLayout.preserve
      · right
        rcases Bool.eq_false_or_eq_true (src.contains '\n') with h | h
        · exact absurd ⟨hl, h⟩ hpb
        · exact h
      · left
        cases hcl : o.classLayout with
        | inl => rfl
        | preserve => exact absurd hcl hl
    rw [classRebuiltValue_inline hor]
    refine splitWs_intercalate (by decide) (by decide) _ ?_
    intro t ht
    exact cpt_tokens ht

theorem classRebuiltValue_mem {o : ResolvedVuenifyOptions} {src v : Str} {c : Char}
    (hc : c ∈ classRebuiltValue o src v) :
    (∃ t ∈ classProcessedTokens o v, c ∈ t) ∨ jsIsWhitespace c = true ∨
      c ∈ str "undefined" := by
  by_cases hpb : o.classLayout = ClassLayout.preserve ∧ src.contains '\n' = true
  · cases hp : classProcessedTokens o v with
    | nil =>
      rw [classRebuiltValue_empty hpb.1 hpb.2 hp] at hc
      exact Or.inr (Or.inr hc)
    | cons t0 ts =>
      rw [classRebuiltValue_preserve hpb.1 hpb.2 hp] at hc
      rcases mem_intercalate hc with hsep | ⟨t, ht, hct⟩
      · rcases List.mem_cons.mp hsep with rfl | hind
        · exact Or.inr (Or.inl (by decide))
        · exact Or.inr (Or.inl ((indent_ws src).2 c hind))
      · exact Or.inl ⟨t, hp ▸ ht, hct⟩
  · have hor : o.classLayout = ClassLayout.inl ∨ src.contains '\n' = false := by
      by_cases hl : o.classLayout = ClassLayout.preserve
      · right
        rcases Bool.eq_false_or_eq_true (src.contains '\n') with h | h
        · exact absurd ⟨hl, h⟩ hpb
        · exact h
      · left
        cases hcl : o.classLayout with
        | inl => rfl
        | preserve => exact absurd hcl hl
    rw [classRebuiltValue_inline hor] at hc
    rcases mem_intercalate hc with hsep | ⟨t, ht, hct⟩
    · rcases List.mem_cons.mp hsep with rfl | h
      · exact Or.inr (Or.inl (by decide))
      · simp at h
    · exact Or.inl ⟨t, ht, hct⟩

theorem apos_of_mem_rv {o : ResolvedVuenifyOptions} {src v : Str}
    (hc : '\'' ∈ classRebuiltValue o src v) : '\'' ∈ v := by
  rcases classRebuiltValue_mem hc with ⟨t, ht, hct⟩ | hws | hund
  · exact splitWs_chars v t (cpt_mem_splitWs ht) _ hct
  · exact absurd hws (by decide)
  · exact absurd hund (by decide)

theorem rebuildClassSource_eq {o : ResolvedVuenifyOptions} {a : AttributeNode} {v : Str}
    (hval : a.value = some v) :
    rebuildClassSource o a = str "class=" ++ (classQuote a.loc.source ::
      (classRebuiltValue o a.loc.source v ++ [classQuote a.loc.source])) := by
  unfold rebuildClassSource
  rw [hval]

theorem classQuote_fix {o : ResolvedVuenifyOptions} {a : AttributeNode} {v : Str}
    (hval : a.value = some v) (hapos : '\'' ∈ v → '\'' ∈ a.loc.source) :
    classQuote (rebuildClassSource o a) = classQuote a.loc.source := by
  rw [rebuildClassSource_eq hval]
  by_cases hsrc : a.loc.source.contains '\'' = true
  · have hq : classQuote a.loc.source = '\'' := by
      unfold classQuote
      rw [if_pos hsrc]
    rw [hq]
    unfold classQuote
    rw [if_pos (contains_iff.mpr
      (List.mem_append.mpr (Or.inr (List.mem_cons_self _ _))))]
  · have hq : classQuote a.loc.source = '"' := by
      unfold classQuote
      rw [if_neg hsrc]
    rw [hq]
    unfold classQuote
    rw [if_neg]
    intro hcon
    have hmem := contains_iff.mp hcon
    rcases List.mem_append.mp hmem with h | h
    · exact absurd h (by decide)
    · rcases List.mem_cons.mp h with h | h
      · cases h
      · rcases List.mem_append.mp h with h | h
        · exact hsrc (contains_iff.mpr (hapos (apos_of_mem_rv h)))
        · rcases List.mem_cons.mp h with h | h
          · cases h
          · simp at h

theorem ne_nl_of_nws {c : Char} (h : jsIsWhitespace c = false) : c ≠ '\n' := by
  rintro rfl
  simp [jsIsWhitespace] at h

theorem dedupFirst_singleton (t : Str) : dedupFirst [t] = [t] := by
  simp [dedupFirst, dedupFirstAux]

theorem jsSortedStrings_singleton (t : Str) : jsSortedStrings [t] = [t] := rfl

theorem cpt_of_splitWs_singleton {o : ResolvedVuenifyOptions} {w t : Str}
    (hw : splitWs w = [t]) : classProcessedTokens o w = [t] := by
  simp only [classProcessedTokens]
  rw [hw]
  have hd : (if o.removeDuplicates = true then dedupFirst [t] else [t]) = [t] := by
    split
    · exact dedupFirst_singleton t
    · rfl
  rw [hd]
  split
  · exact jsSortedStrings_singleton t
  · rfl

theorem no_newline_intercalate_space {toks : List Str}
    (h : ∀ t ∈ toks, ∀ c ∈ t, jsIsWhitespace c = false) :
    '\n' ∉ List.intercalate [' '] toks := by
  intro hc
  rcases mem_intercalate hc with hs | ⟨t, ht, hct⟩
  · simp at hs
  · exact ne_nl_of_nws (h t ht '\n' hct) rfl

theorem RB_newline_false {Q : Char} (hQ : Q ≠ '\n') {rv : Str} (h : '\n' ∉ rv) :
    (str "class=" ++ (Q :: (rv ++ [Q]))).contains '\n' = false := by
  rw [← Bool.not_eq_true, contains_iff]
  intro hc
  rcases List.mem_append.mp hc with hc | hc
  · exact absurd hc (by decide)
  · rcases List.mem_cons.mp hc with hc | hc
    · exact hQ hc.symm
    · rcases List.mem_append.mp hc with hc | hc
      · exact h hc
      · rcases List.mem_cons.mp hc with hc | hc
        · exact hQ hc.symm
        · simp at hc

theorem RB_newline_true {Q : Char} {rv : Str} (h : '\n' ∈ rv) :
    (str "class=" ++ (Q :: (rv ++ [Q]))).contains '\n' = true :=
  contains_iff.mpr (List.mem_append.mpr (Or.inr (List.mem_cons_of_mem _
    (List.mem_append.mpr (Or.inl h)))))

theorem classRebuiltValue_fix (o : ResolvedVuenifyOptions) (src v : Str) (Q : Char)
    (hQ : Q = '\'' ∨ Q = '"') :
    classRebuiltValue o (str "class=" ++ (Q :: (classRebuiltValue o src v ++ [Q])))
      (classRebuiltValue o src v) = classRebuiltValue o src v := by
  have hQn : Q ≠ '\n' := by
    rcases hQ with rfl | rfl <;> decide
  rcases @splitWs_classRebuiltValue o src v with hsw | ⟨hnil, hl, hnb, hundef⟩
  · have hcpt : classProcessedTokens o (classRebuiltValue o src v) =
        classProcessedTokens o v := cpt_fix hsw
    by_cases hpb : o.classLayout = ClassLayout.preserve ∧ src.contains '\n' = true
    · cases hp : classProcessedTokens o v with
      | nil =>
        have h1 := hsw
        rw [classRebuiltValue_empty hpb.1 hpb.2 hp, hp] at h1
        exact absurd h1 (by decide)
      | cons t0 ts =>
        have hrv := classRebuiltValue_preserve (o := o) (v := v)
          hpb.1 hpb.2 hp
        cases ts with
        | nil =>
          have ht0 := cpt_tokens (o := o) (v := v) (hp ▸ List.mem_cons_self t0 [])
          have hrv0 : classRebuiltValue o src v = t0 := by
            rw [hrv, intercalate_single]
          have hno : '\n' ∉ classRebuiltValue o src v := by
            rw [hrv0]
            intro hc
            exact ne_nl_of_nws (ht0.2 '\n' hc) rfl
          rw [classRebuiltValue_inline (Or.inr (RB_newline_false hQn hno)), hcpt, hp,
            intercalate_single, hrv0]
        | cons t1 ts2 =>
          have hyes : '\n' ∈ classRebuiltValue o src v := by
            rw [hrv, intercalate_cons]
            refine List.mem_append.mpr (Or.inr ?_)
            refine List.mem_flatten.mpr ⟨('\n' :: (indentOf src).getD (str "  ")) ++ t1, ?_, ?_⟩
            · exact List.mem_map.mpr ⟨t1, List.mem_cons_self t1 ts2, rfl⟩
            · exact List.mem_append.mpr (Or.inl (List.mem_cons_self _ _))
          have ht1 := cpt_tokens (o := o) (v := v)
            (hp ▸ List.mem_cons_of_mem t0 (List.mem_cons_self t1 ts2))
          obtain ⟨c1, t1tl, rfl⟩ : ∃ c1 t1tl, t1 = c1 :: t1tl := by
            cases t1 with
            | nil => exact absurd rfl ht1.1
            | cons c1 t1tl => exact ⟨c1, t1tl, rfl⟩
          have ht0 := cpt_tokens (o := o) (v := v) (hp ▸ List.mem_cons_self t0 _)
          have hind : indentOf (str "class=" ++ (Q :: (classRebuiltValue o src v ++ [Q]))) =
              some ((indentOf src).getD (str "  ")) := by
            rw [hrv, intercalate_cons]
            simp only [List.map_cons, List.flatten_cons]
            rw [show str "class=" ++ (Q :: ((t0 ++ (('\n' :: (indentOf src).getD (str "  ")) ++
                (c1 :: t1tl) ++ ((ts2.map fun x =>
                  ('\n' :: (indentOf src).getD (str "  ")) ++ x).flatten))) ++ [Q])) =
              (str "class=" ++ (Q :: t0)) ++ ('\n' :: ((indentOf src).getD (str "  ") ++
                (c1 :: (t1tl ++ (((ts2.map fun x =>
                  ('\n' :: (indentOf src).getD (str "  ")) ++ x).flatten) ++ [Q]))))) from by
              simp [List.append_assoc]]
            rw [indentOf_pre _ ?_]
            · exact indentOf_sep (indent_ws src).1 (indent_ws src).2
                (ht1.2 c1 (List.mem_cons_self c1 t1tl)) _
            · intro c hc
              rcases List.mem_append.mp hc with hc | hc
              · exact (show ∀ x ∈ str "class=", x ≠ '\n' from by decide) c hc
              · rcases List.mem_cons.mp hc with rfl | hc
                · exact hQn
                · exact ne_nl_of_nws (ht0.2 c hc)
          rw [classRebuiltValue_preserve hpb.1 (RB_newline_true hyes) (hcpt.trans hp),
            hind, Option.getD_some, hrv]
    · have hor : o.classLayout = ClassLayout.inl ∨ src.contains '\n' = false := by
        by_cases hl : o.classLayout = ClassLayout.preserve
        · right
          rcases Bool.eq_false_or_eq_true (src.contains '\n') with h | h
          · exact absurd ⟨hl, h⟩ hpb
          · exact h
        · left
          cases hcl : o.classLayout with
          | inl => rfl
          | preserve => exact absurd hcl hl
      have hrv := classRebuiltValue_inline (o := o) (v := v) hor
      have hno : '\n' ∉ classRebuiltValue o src v := by
        rw [hrv]
        exact no_newline_intercalate_space fun t ht => (cpt_tokens ht).2
      rw [classRebuiltValue_inline (Or.inr (RB_newline_false hQn hno)), hcpt, hrv]
  · have hsw2 : splitWs (classRebuiltValue o src v) = [str "undefined"] := by
      rw [hundef]
      decide
    have hcpt : classProcessedTokens o (classRebuiltValue o src v) = [str "undefined"] :=
      cpt_of_splitWs_singleton hsw2
    have hno : '\n' ∉ classRebuiltValue o src v := by
      rw [hundef]
      decide
    rw [classRebuiltValue_inline (Or.inr (RB_newline_false hQn hno)), hcpt,
      intercalate_single, hundef]

theorem propWF_attr {a : AttributeNode} {v : Str} (h : propWF (PropNode.attr a) = true)
    (hn : a.name = str "class") (hval : a.value = some v) :
    '\'' ∈ v → '\'' ∈ a.loc.source := by
  intro hv
  simp only [propWF, hn, hval] at h
  have h1 : (!(v.contains '\'') || a.loc.source.contains '\'') = true := by
    simpa using h
  simp only [Bool.or_eq_true] at h1
  rcases h1 with h2 | h2
  · exact absurd (contains_iff.mpr hv) (by simpa using h2)
  · exact contains_iff.mp h2

theorem propWF_dir {d : DirectiveNode} (h : propWF (PropNode.dir d) = true) :
    '=' ∉ d.arg.getD [] ∧ ∀ m ∈ d.modifiers, '=' ∉ m := by
  simp only [propWF] at h
  simp only [Bool.and_eq_true] at h
  rcases h with ⟨h1, h2⟩
  constructor
  · intro hc
    exact absurd (contains_iff.mpr hc) (by simpa using h1)
  · intro m hm hc
    have h3 := (List.all_eq_true.mp h2) m hm
    exact absurd (contains_iff.mpr hc) (by simpa using h3)

theorem sliceFromEq_cons_eq (xs : Str) : sliceFromEq ('=' :: xs) = '=' :: xs := by
  simp [sliceFromEq]

theorem directiveValuePart_fix (mode : SameNameMode) (d : DirectiveNode) :
    directiveValuePart mode d.name (d.arg.getD []) (reparsedExp mode d)
      (if (reparsedExp mode d).isSome then
        sliceFromEq (directiveValuePart mode d.name (d.arg.getD []) d.exp
          (if d.exp.isSome then sliceFromEq d.loc.source else [])) else []) =
    directiveValuePart mode d.name (d.arg.getD []) d.exp
      (if d.exp.isSome then sliceFromEq d.loc.source else []) := by
  by_cases hA : d.name = str "bind" ∧ d.arg.getD [] ≠ [] ∧ mode ≠ SameNameMode.ignore
  · obtain ⟨h1, h2, h3⟩ := hA
    cases mode with
    | ignore => exact absurd rfl h3
    | removeValue =>
      cases hex : d.exp with
      | none => simp [directiveValuePart, reparsedExp, h1, h2, hex]
      | some e =>
        by_cases htr : trimStr e = normalizedArgOf (d.arg.getD [])
        · simp [directiveValuePart, reparsedExp, h1, h2, hex, htr]
        · simp [directiveValuePart, reparsedExp, h1, h2, hex, htr, sliceFromEq_idem]
    | addValue =>
      cases hex : d.exp with
      | none => simp [directiveValuePart, reparsedExp, h1, h2, hex, sliceFromEq_cons_eq]
      | some e => simp [directiveValuePart, reparsedExp, h1, h2, hex, sliceFromEq_idem]
  · have hexp : reparsedExp mode d = d.exp := by
      unfold reparsedExp
      rw [if_neg hA]
    have hvp : ∀ z, directiveValuePart mode d.name (d.arg.getD []) d.exp z = z := by
      intro z
      unfold directiveValuePart
      rw [if_neg hA]
    rw [hexp]
    simp only [hvp]
    cases hex : d.exp with
    | none => simp
    | some e => simp [sliceFromEq_idem]

theorem buildDirective_cases (name arg : Str) (style : DirectiveStyle) :
    (∀ raw modStr vp : Str, buildDirective raw name arg modStr vp style = raw) ∨
    (∃ pre : Str, pre ≠ [] ∧ ('=' ∉ pre) ∧
      ∀ raw modStr vp : Str, buildDirective raw name arg modStr vp style =
        pre ++ (arg ++ modStr ++ vp)) := by
  by_cases hn : name = str "bind" ∨ name = str "on" ∨ name = str "slot"
  · by_cases ha : arg = []
    · left
      intro raw modStr vp
      subst ha
      rcases hn with rfl | rfl | rfl <;> cases style <;> simp [buildDirective]
    · right
      rcases hn with rfl | rfl | rfl <;> cases style
      · exact ⟨[':'], by decide, by decide, fun raw modStr vp => by simp [buildDirective, ha]⟩
      · exact ⟨str "v-bind:", by decide, by decide,
          fun raw modStr vp => by simp [buildDirective, ha]⟩
      · exact ⟨['@'], by decide, by decide, fun raw modStr vp => by
          simp [buildDirective, ha, show ¬(str "on" = str "bind") from by decide]⟩
      · exact ⟨str "v-on:", by decide, by decide, fun raw modStr vp => by
          simp [buildDirective, ha, show ¬(str "on" = str "bind") from by decide]⟩
      · exact ⟨['#'], by decide, by decide, fun raw modStr vp => by
          simp [buildDirective, ha, show ¬(str "slot" = str "bind") from by decide,
            show ¬(str "slot" = str "on") from by decide]⟩
      · exact ⟨str "v-slot:", by decide, by decide, fun raw modStr vp => by
          simp [buildDirective, ha, show ¬(str "slot" = str "bind") from by decide,
            show ¬(str "slot" = str "on") from by decide]⟩
  · left
    intro raw modStr vp
    unfold buildDirective
    rw [if_pos hn]

theorem modStr_no_eq {mods : List Str} (h : ∀ m ∈ mods, '=' ∉ m) :
    '=' ∉ (if mods.filter (fun m => decide (m ≠ [])) ≠ [] then
      '.' :: List.intercalate (str ".") (mods.filter fun m => decide (m ≠ [])) else []) := by
  split
  · intro hc
    rcases List.mem_cons.mp hc with hc | hc
    · exact absurd hc (by decide)
    · rcases mem_intercalate hc with hs | ⟨t, ht, hct⟩
      · exact absurd hs (by decide)
      · exact h t (List.mem_filter.mp ht).1 hct
  · simp

theorem getDirectiveTransform_fix {d d2 : DirectiveNode} {style : DirectiveStyle}
    {mode : SameNameMode} {res : Replacement}
    (harg : '=' ∉ d.arg.getD []) (hmods : ∀ m ∈ d.modifiers, '=' ∉ m)
    (hres : getDirectiveTransform d 0 style mode = some res)
    (hname : d2.name = d.name) (harg2 : d2.arg = d.arg) (hmods2 : d2.modifiers = d.modifiers)
    (hexp2 : d2.exp = reparsedExp mode d) (hsrc2 : d2.loc.source = res.value) :
    getDirectiveTransform d2 0 style mode = none := by
  simp only [getDirectiveTransform] at hres
  split at hres
  · exact Option.noConfusion hres
  · rename_i hsrc
    set M := (if d.modifiers.filter (fun m => decide (m ≠ [])) ≠ [] then
      '.' :: List.intercalate (str ".") (d.modifiers.filter fun m => decide (m ≠ [])) else [])
      with hM
    set VP := directiveValuePart mode d.name (d.arg.getD []) d.exp
      (if d.exp.isSome then sliceFromEq d.loc.source else []) with hVP
    set ND := buildDirective d.loc.source d.name (d.arg.getD []) M VP style with hND
    split at hres
    · rename_i hne
      have hval : res.value = ND := by
        rw [← Option.some.inj hres]
      rcases buildDirective_cases d.name (d.arg.getD []) style with hid | ⟨pre, hpne, hpeq, hall⟩
      · exact absurd ((hND.trans (hid _ _ _)).symm) hne
      · have hpre' : ∀ c ∈ pre, c ≠ '=' := fun c hc he => hpeq (he ▸ hc)
        have harg' : ∀ c ∈ d.arg.getD [], c ≠ '=' := fun c hc he => harg (he ▸ hc)
        have hmodM : ∀ c ∈ M, c ≠ '=' := by
          rw [hM]
          exact fun c hc he => modStr_no_eq hmods (he ▸ hc)
        have hargM : ∀ c ∈ d.arg.getD [] ++ M, c ≠ '=' := by
          intro c hc
          rcases List.mem_append.mp hc with hc | hc
          · exact harg' c hc
          · exact hmodM c hc
        have hndeq : ND = pre ++ (d.arg.getD [] ++ M ++ VP) := by
          rw [hND]
          exact hall _ _ _
        have h2src : d2.loc.source ≠ [] := by
          rw [hsrc2, hval, hndeq]
          cases pre with
          | nil => exact absurd rfl hpne
          | cons c cs => simp
        simp only [getDirectiveTransform]
        rw [if_neg h2src]
        rw [hname, harg2, hmods2, hexp2, ← hM, hsrc2, hval, hndeq]
        rw [hall]
        rw [sliceFromEq_append _ hpre', sliceFromEq_append _ hargM]
        rw [hVP]
        rw [directiveValuePart_fix mode d]
        rw [if_neg (not_ne_iff.mpr rfl)]
    · exact Option.noConfusion hres

theorem classQuote_cases (s : Str) : classQuote s = '\'' ∨ classQuote s = '"' := by
  unfold classQuote
  split
  · exact Or.inl rfl
  · exact Or.inr rfl

theorem rebuildClassSource_fix {o : ResolvedVuenifyOptions} {a : AttributeNode} {v : Str}
    (hval : a.value = some v) (hapos : '\'' ∈ v → '\'' ∈ a.loc.source) :
    rebuildClassSource o { a with
      value := some (classRebuiltValue o a.loc.source (a.value.getD [])),
      loc := { a.loc with source := rebuildClassSource o a } } = rebuildClassSource o a := by
  rw [hval]
  have h2 := rebuildClassSource_eq (o := o)
    (a := { a with
      value := some (classRebuiltValue o a.loc.source ((some v).getD [])),
      loc := { a.loc with source := rebuildClassSource o a } }) (v := classRebuiltValue o a.loc.source ((some v).getD [])) rfl
  simp only [Option.getD_some] at h2 ⊢
  rw [h2]
  show str "class=" ++ (classQuote (rebuildClassSource o a) ::
    (classRebuiltValue o (rebuildClassSource o a) (classRebuiltValue o a.loc.source v) ++
      [classQuote (rebuildClassSource o a)])) = rebuildClassSource o a
  rw [classQuote_fix hval hapos]
  rw [rebuildClassSource_eq hval]
  rw [classRebuiltValue_fix o a.loc.source v (classQuote a.loc.source)
    (classQuote_cases a.loc.source)]

theorem transformProp_attr_id {o : ResolvedVuenifyOptions} {a : AttributeNode}
    (h : (a.name = str "class" ∧ a.value.isSome ∧ (o.sortClasses ∨ o.removeDuplicates)) →
      rebuildClassSource o a = a.loc.source) :
    transformProp o (PropNode.attr a) = PropNode.attr a := by
  simp only [transformProp]
  split
  · rename_i hg
    rw [if_neg (not_ne_iff.mpr (h hg))]
  · rfl

theorem transformProp_dir_id {o : ResolvedVuenifyOptions} {d : DirectiveNode}
    (h : o.normalizeDirectives = true →
      ∀ res, getDirectiveTransform d 0 o.directiveStyle o.sameNameMode = some res →
        res.value = d.loc.source) :
    transformProp o (PropNode.dir d) = PropNode.dir d := by
  simp only [transformProp]
  split
  · rename_i hnd
    cases hgd : getDirectiveTransform d 0 o.directiveStyle o.sameNameMode with
    | none => rfl
    | some res =>
      show (if res.value ≠ d.loc.source then
        PropNode.dir (cloneDirectiveWithSource d res.value) else PropNode.dir d) = PropNode.dir d
      rw [if_neg (not_ne_iff.mpr (h hnd res hgd))]
  · rfl

theorem reparsedProp_attr_id {o : ResolvedVuenifyOptions} {a : AttributeNode}
    (h : (a.name = str "class" ∧ a.value.isSome ∧ (o.sortClasses ∨ o.removeDuplicates)) →
      rebuildClassSource o a = a.loc.source) :
    reparsedProp o (PropNode.attr a) = PropNode.attr a := by
  simp only [reparsedProp]
  split
  · rename_i hg
    rw [if_neg (not_ne_iff.mpr (h hg))]
  · rfl

theorem reparsedProp_dir_id {o : ResolvedVuenifyOptions} {d : DirectiveNode}
    (h : o.normalizeDirectives = true →
      ∀ res, getDirectiveTransform d 0 o.directiveStyle o.sameNameMode = some res →
        res.value = d.loc.source) :
    reparsedProp o (PropNode.dir d) = PropNode.dir d := by
  simp only [reparsedProp]
  split
  · rename_i hnd
    cases hgd : getDirectiveTransform d 0 o.directiveStyle o.sameNameMode with
    | none => rfl
    | some res =>
      show (if res.value ≠ d.loc.source then
          PropNode.dir
            { d with exp := reparsedExp o.sameNameMode d, loc := { d.loc with source := res.value } }
        else PropNode.dir d) = PropNode.dir d
      rw [if_neg (not_ne_iff.mpr (h hnd res hgd))]
  · rfl

theorem reparsedProp_attr_changed {o : ResolvedVuenifyOptions} {a : AttributeNode}
    (hg : a.name = str "class" ∧ a.value.isSome ∧ (o.sortClasses ∨ o.removeDuplicates))
    (hch : rebuildClassSource o a ≠ a.loc.source) :
    reparsedProp o (PropNode.attr a) = PropNode.attr { a with
      value := some (classRebuiltValue o a.loc.source (a.value.getD [])),
      loc := { a.loc with source := rebuildClassSource o a } } := by
  simp only [reparsedProp]
  rw [if_pos hg, if_pos hch]

theorem reparsedProp_dir_changed {o : ResolvedVuenifyOptions} {d : DirectiveNode}
    {res : Replacement} (hnd : o.normalizeDirectives = true)
    (hgd : getDirectiveTransform d 0 o.directiveStyle o.sameNameMode = some res)
    (hne : res.value ≠ d.loc.source) :
    reparsedProp o (PropNode.dir d) = PropNode.dir { d with
      exp := reparsedExp o.sameNameMode d, loc := { d.loc with source := res.value } } := by
  simp only [reparsedProp]
  rw [if_pos hnd, hgd]
  show (if res.value ≠ d.loc.source then
      PropNode.dir
        { d with exp := reparsedExp o.sameNameMode d, loc := { d.loc with source := res.value } }
    else PropNode.dir d) = _
  rw [if_pos hne]

theorem transformProp_fix (o : ResolvedVuenifyOptions) (p : PropNode)
    (h : propWF p = true) :
    transformProp o (reparsedProp o p) = reparsedProp o p := by
  cases p with
  | attr a =>
    by_cases hg : a.name = str "class" ∧ a.value.isSome ∧
        (o.sortClasses ∨ o.removeDuplicates)
    · obtain ⟨v, hval⟩ := Option.isSome_iff_exists.mp hg.2.1
      by_cases hch : rebuildClassSource o a ≠ a.loc.source
      · rw [reparsedProp_attr_changed hg hch]
        exact transformProp_attr_id
          (fun _ => rebuildClassSource_fix hval (propWF_attr h hg.1 hval))
      · rw [reparsedProp_attr_id (fun _ => not_ne_iff.mp hch)]
        exact transformProp_attr_id (fun _ => not_ne_iff.mp hch)
    · rw [reparsedProp_attr_id (fun hg2 => absurd hg2 hg)]
      exact transformProp_attr_id (fun hg2 => absurd hg2 hg)
  | dir d =>
    by_cases hnd : o.normalizeDirectives = true
    · cases hgd : getDirectiveTransform d 0 o.directiveStyle o.sameNameMode with
      | none =>
        rw [reparsedProp_dir_id (fun _ res hres => absurd (hgd.symm.trans hres)
          (by simp))]
        exact transformProp_dir_id (fun _ res hres => absurd (hgd.symm.trans hres)
          (by simp))
      | some res =>
        by_cases hne : res.value ≠ d.loc.source
        · rw [reparsedProp_dir_changed hnd hgd hne]
          refine transformProp_dir_id (fun _ res2 hres2 => ?_)
          have hfix : getDirectiveTransform
              { d with exp := reparsedExp o.sameNameMode d,
                       loc := { d.loc with source := res.value } }
              0 o.directiveStyle o.sameNameMode = none :=
            getDirectiveTransform_fix (propWF_dir h).1 (propWF_dir h).2 hgd
              rfl rfl rfl rfl rfl
          exact Option.noConfusion (hfix.symm.trans hres2)
        · have heq := not_ne_iff.mp hne
          rw [reparsedProp_dir_id (fun _ res2 hres2 =>
            (Option.some.inj (hgd.symm.trans hres2)) ▸ heq)]
          exact transformProp_dir_id (fun _ res2 hres2 =>
            (Option.some.inj (hgd.symm.trans hres2)) ▸ heq)
    · rw [reparsedProp_dir_id (fun hnd2 => absurd hnd2 hnd)]
      exact transformProp_dir_id (fun hnd2 => absurd hnd2 hnd)

theorem isDir_of_not_isAttr {x : PropNode} (h : isAttributeNode x = true) :
    isDirectiveNode x = false := by
  cases x with
  | attr a => rfl
  | dir d => exact absurd h (by simp [isAttributeNode])

theorem isAttr_of_not_isDir {x : PropNode} (h : isDirectiveNode x = true) :
    isAttributeNode x = false := by
  cases x with
  | attr a => exact absurd h (by simp [isDirectiveNode])
  | dir d => rfl

theorem stableSort_attr_all (l : List PropNode) :
    ∀ p ∈ stableSort (l.filter isAttributeNode) attrPropCompare,
      isAttributeNode p = true := by
  intro p hp
  exact (List.mem_filter.mp
    ((stableSort_perm (l.filter isAttributeNode) attrPropCompare).mem_iff.mp hp)).2

theorem orderAttributesPass_filter (l : List PropNode) :
    (orderAttributesPass l).filter isAttributeNode =
      stableSort (l.filter isAttributeNode) attrPropCompare := by
  unfold orderAttributesPass
  exact filter_spliceBy isAttributeNode l _ (stableSort_attr_all l)
    (stableSort_perm _ _).length_eq

theorem filter_dir_orderAttributesPass (l : List PropNode) :
    (orderAttributesPass l).filter isDirectiveNode = l.filter isDirectiveNode := by
  unfold orderAttributesPass
  exact filter_spliceBy_other (fun x hx => isDir_of_not_isAttr hx) l _ (stableSort_attr_all l)

theorem orderDirectivesPass_id {order : List Str} {l : List PropNode}
    (h : (l.filter isDirectiveNode).Pairwise
      (fun a b => dirPropCompare order a b ≤ 0)) :
    orderDirectivesPass order l = l := by
  unfold orderDirectivesPass
  rw [stableSort_of_sorted h, spliceBy_self]

theorem orderAttributesPass_id {l : List PropNode}
    (h : (l.filter isAttributeNode).Pairwise (fun a b => attrPropCompare a b ≤ 0)) :
    orderAttributesPass l = l := by
  unfold orderAttributesPass
  rw [stableSort_of_sorted h, spliceBy_self]

theorem mem_spliceBy {isK : PropNode → Bool} :
    ∀ {l ds : List PropNode} {x : PropNode}, x ∈ spliceBy isK l ds → x ∈ l ∨ x ∈ ds
  | [], _, x, h => by simp [spliceBy] at h
  | p :: ps, ds, x, h => by
    cases hk : isK p with
    | true =>
      cases ds with
      | nil =>
        rw [spliceBy_cons_pos_nil ps hk] at h
        rcases List.mem_cons.mp h with rfl | h
        · exact Or.inl (List.mem_cons_self _ _)
        · rcases mem_spliceBy h with h | h
          · exact Or.inl (List.mem_cons_of_mem p h)
          · simp at h
      | cons d ds2 =>
        rw [spliceBy_cons_pos ps d ds2 hk] at h
        rcases List.mem_cons.mp h with rfl | h
        · exact Or.inr (List.mem_cons_self _ _)
        · rcases mem_spliceBy h with h | h
          · exact Or.inl (List.mem_cons_of_mem p h)
          · exact Or.inr (List.mem_cons_of_mem d h)
    | false =>
      rw [spliceBy_cons_neg ps ds hk] at h
      rcases List.mem_cons.mp h with rfl | h
      · exact Or.inl (List.mem_cons_self _ _)
      · rcases mem_spliceBy h with h | h
        · exact Or.inl (List.mem_cons_of_mem p h)
        · exact Or.inr h

theorem mem_orderDirectivesPass {order : List Str} {m : List PropNode} {x : PropNode}
    (hx : x ∈ orderDirectivesPass order m) : x ∈ m := by
  unfold orderDirectivesPass at hx
  rcases mem_spliceBy hx with hx | hx
  · exact hx
  · exact (List.mem_filter.mp ((stableSort_perm _ _).mem_iff.mp hx)).1

theorem mem_orderAttributesPass {m : List PropNode} {x : PropNode}
    (hx : x ∈ orderAttributesPass m) : x ∈ m := by
  unfold orderAttributesPass at hx
  rcases mem_spliceBy hx with hx | hx
  · exact hx
  · exact (List.mem_filter.mp ((stableSort_perm _ _).mem_iff.mp hx)).1

theorem mem_sortPasses {o : ResolvedVuenifyOptions} {l : List PropNode} {p : PropNode}
    (h : p ∈ sortPasses o l) : p ∈ l := by
  simp only [sortPasses] at h
  split at h
  · have h2 := mem_orderAttributesPass h
    split at h2
    · exact mem_orderDirectivesPass h2
    · exact h2
  · split at h
    · exact mem_orderDirectivesPass h
    · exact h

theorem sortPasses_dir_sorted (o : ResolvedVuenifyOptions) (l : List PropNode)
    (hflag : o.orderDirectives = true) :
    ((sortPasses o l).filter isDirectiveNode).Pairwise
      (fun a b => dirPropCompare o.directiveOrder a b ≤ 0) := by
  simp only [sortPasses]
  rw [if_pos hflag]
  split
  · rw [filter_dir_orderAttributesPass, orderDirectivesPass_filter]
    exact pairwise_stableSort (dirPropCompare_laws _) _
  · rw [orderDirectivesPass_filter]
    exact pairwise_stableSort (dirPropCompare_laws _) _

theorem sortPasses_attr_sorted (o : ResolvedVuenifyOptions) (l : List PropNode)
    (hflag : o.orderAttributes = true) :
    ((sortPasses o l).filter isAttributeNode).Pairwise
      (fun a b => attrPropCompare a b ≤ 0) := by
  simp only [sortPasses]
  rw [if_pos hflag, orderAttributesPass_filter]
  exact pairwise_stableSort attrPropCompare_laws _

theorem pass1_id {o : ResolvedVuenifyOptions} {l : List PropNode}
    (h : ∀ p ∈ l, transformProp o p = p) : pass1 o l = l := by
  unfold pass1
  rw [List.map_congr_left h]
  exact List.map_id' l

theorem buildChanged_rerendered (e : ElementNode) (o : ResolvedVuenifyOptions)
    (hwf : ∀ p ∈ e.props, propWF p = true) :
    buildChanged o (sortPasses o (e.props.map (reparsedProp o))) = false := by
  have hfixP : ∀ p ∈ sortPasses o (e.props.map (reparsedProp o)), transformProp o p = p := by
    intro p hp
    obtain ⟨q, hq, rfl⟩ := List.mem_map.mp (mem_sortPasses hp)
    exact transformProp_fix o q (hwf q hq)
  have hpass1 : pass1 o (sortPasses o (e.props.map (reparsedProp o))) =
      sortPasses o (e.props.map (reparsedProp o)) := pass1_id hfixP
  have h1 : ((sortPasses o (e.props.map (reparsedProp o))).any
      fun p => decide (transformProp o p ≠ p)) = false := by
    rw [List.any_eq_false]
    intro p hp
    simp [hfixP p hp]
  have hs1 : (if o.orderDirectives then
      orderDirectivesPass o.directiveOrder (sortPasses o (e.props.map (reparsedProp o)))
      else sortPasses o (e.props.map (reparsedProp o))) =
      sortPasses o (e.props.map (reparsedProp o)) := by
    split
    · rename_i hflag
      exact orderDirectivesPass_id (sortPasses_dir_sorted o _ hflag)
    · rfl
  have hs2 : (if o.orderAttributes then
      orderAttributesPass (sortPasses o (e.props.map (reparsedProp o)))
      else sortPasses o (e.props.map (reparsedProp o))) =
      sortPasses o (e.props.map (reparsedProp o)) := by
    split
    · rename_i hflag
      exact orderAttributesPass_id (sortPasses_attr_sorted o _ hflag)
    · rfl
  simp only [buildChanged]
  rw [hpass1, hs1, hs2, h1, someDiffers_self]
  simp

/-- C1 (idempotence): for every element list and every configuration,
re-running the transform on the document obtained by applying the computed
replacements — each element that produced a replacement re-parses to its
re-rendered form, every other element is unchanged — yields an empty
replacement list.  The re-parsed props must satisfy the parser-guaranteed
well-formedness `propWF`: a class value's apostrophe appears in its raw
attribute text, and directive arguments and modifiers contain no `=`. -/
theorem claim_C1 (elements : List ElementNode) (off : Nat) (o : ResolvedVuenifyOptions)
    (hwf : ∀ e ∈ elements, ∀ p ∈ e.props, propWF p = true) :
    vuenifyTransformOnElements
      (elements.map fun e =>
        if (buildUnifiedAttributeReplacement e off o).isSome = true then
          rerenderedElement e o
        else e) off o = [] := by
  unfold vuenifyTransformOnElements
  rw [List.filterMap_eq_nil]
  intro e' he'
  obtain ⟨e, he, rfl⟩ := List.mem_map.mp he'
  split
  · exact build_eq_none_of_not_changed _ off o (buildChanged_rerendered e o (hwf e he))
  · rename_i hnot
    exact Option.not_isSome_iff_eq_none.mp (by simpa using hnot)

theorem claim_C1_witness :
    (∀ e ∈ [wElemDirs, c9Elem], ∀ p ∈ e.props, propWF p = true) ∧
    vuenifyTransformOnElements
      ([wElemDirs, c9Elem].map fun e =>
        if (buildUnifiedAttributeReplacement e 0 wOptsOrder).isSome = true then
          rerenderedElement e wOptsOrder
        else e) 0 wOptsOrder = [] :=
  ⟨by decide, claim_C1 [wElemDirs, c9Elem] 0 wOptsOrder (by decide)⟩
